/-
  Verification of the Sikuwa incremental-compilation core and cache system.

  This file gives a shallow embedding, in Lean 4, of the C++ sources
  src/incremental/cpp/incremental_core.cpp and src/cpp_cache/smart_cache.cpp,
  and proves (or refutes) the specification claims about them.

  Modelling conventions:
  - C++ std::string values that are only compared or stored are Lean String;
    byte-level content that gets hashed is List Nat (one Nat per byte, < 256).
  - std::unordered_map is an association list (List (key, value)); the maps in
    the source always hold at most one entry per key.  Iteration order of
    unordered containers is unspecified in C++; where the source iterates an
    unordered_set we model a canonical order and only prove order-insensitive
    (set-level) statements.
  - uint64_t arithmetic is Nat with explicit reduction modulo 2^64.
  - calls that would be undefined behaviour in C++ (back() on an empty
    std::list) make the modelled operation return none.
-/
import Mathlib

set_option maxHeartbeats 1000000
set_option maxRecDepth 2000

namespace Sikuwa

/-! ## Association list primitives

`std::unordered_map` operations used by the sources: lookup, insert-or-assign
(`m[k] = v`), erase, and in-place update through a reference/pointer. -/

def assocFind {κ α : Type} [DecidableEq κ] (m : List (κ × α)) (k : κ) : Option α :=
  (m.find? (fun e => e.1 == k)).map (·.2)

def assocInsert {κ α : Type} [DecidableEq κ] (m : List (κ × α)) (k : κ) (v : α) :
    List (κ × α) :=
  if (m.find? (fun e => e.1 == k)).isSome then
    m.map (fun e => if e.1 == k then (k, v) else e)
  else
    m ++ [(k, v)]

def assocErase {κ α : Type} [DecidableEq κ] (m : List (κ × α)) (k : κ) : List (κ × α) :=
  m.filter (fun e => e.1 != k)

/-- In-place mutation of the value stored under `k` (no-op when absent),
as done through an lvalue reference or pointer in C++. -/
def assocUpdate {κ α : Type} [DecidableEq κ] (m : List (κ × α)) (k : κ) (f : α → α) :
    List (κ × α) :=
  m.map (fun e => if e.1 == k then (k, f e.2) else e)

/-! ## Hashing and line utilities (incremental_core.cpp, section 4.A)

`fnv1a_hash` iterates over the bytes of a `const char*`.  On the reference
platform (x86-64 Linux) `char` is signed, so `static_cast<uint64_t>(data[i])`
sign-extends bytes at or above 0x80 before the XOR. -/

def u64size : Nat := 18446744073709551616

def fnvOffsetBasis : Nat := 14695981039346656037

def fnvPrime : Nat := 1099511628211

/-- A byte read through a signed `char` and cast to `uint64_t`:
values at or above 128 are sign-extended. -/
def signedCharToU64 (b : Nat) : Nat :=
  if b < 128 then b else u64size - 256 + b

def fnv1a_hash (data : List Nat) : Nat :=
  data.foldl (fun h b => ((h ^^^ signedCharToU64 b) * fnvPrime) % u64size) fnvOffsetBasis

/-- FNV-1a as the specification words it (claim C6): each byte is XORed in as
an unsigned octet.  This is the comparison point for the refinement claim;
the source embedding is `fnv1a_hash` above. -/
def fnv1a_spec (data : List Nat) : Nat :=
  data.foldl (fun h b => ((h ^^^ b) * fnvPrime) % u64size) fnvOffsetBasis

def hexDigit (n : Nat) : Char :=
  if n < 10 then Char.ofNat (48 + n) else Char.ofNat (87 + n)

/-- Render the low `k` hex digits of `v`, zero padded: the effect of
`std::hex << std::setfill(0) << std::setw(k)` on a value with at most
`k` digits. -/
def hexPadAux : Nat → Nat → List Char → List Char
  | 0, _, acc => acc
  | k + 1, v, acc => hexPadAux k (v / 16) (hexDigit (v % 16) :: acc)

def hexPad16 (v : Nat) : String := String.mk (hexPadAux 16 v [])

/-- ChangeDetector::compute_hash: FNV-1a of the content bytes rendered as 16
hex digits. -/
def compute_hash (content : List Nat) : String := hexPad16 (fnv1a_hash content)

/-- Rendering demanded by the claim wording: 16 lowercase hex digits of the
standard (unsigned-octet) FNV-1a hash. -/
def compute_hash_spec (content : List Nat) : String := hexPad16 (fnv1a_spec content)

def asciiWhitespace : List Nat := [32, 9, 13, 10]

/-- ChangeDetector::compute_line_hash: trim ASCII whitespace from both ends;
an all-whitespace (or empty) line hashes to the literal "empty". -/
def compute_line_hash (line : List Nat) : String :=
  match line.dropWhile (fun b => asciiWhitespace.contains b) with
  | [] => "empty"
  | rest => compute_hash ((rest.reverse.dropWhile (fun b => asciiWhitespace.contains b)).reverse)

/-- split_lines: std::getline on a newline separator; the empty input yields
no lines and a trailing newline yields no empty tail element. -/
def split_lines (content : List Nat) : List (List Nat) :=
  if content = [] then []
  else if content.getLast? = some 10 then (content.splitOn 10).dropLast
  else content.splitOn 10

/-! ## Unit manager data model (incremental_core.h) -/

inductive UnitType
  | LINE
  | STATEMENT
  | FUNCTION
  | CLASS
  | MODULE
  | IMPORT
  | DECORATOR
  | BLOCK
deriving DecidableEq

inductive UnitState
  | UNKNOWN
  | UNCHANGED
  | MODIFIED
  | ADDED
  | DELETED
  | AFFECTED
deriving DecidableEq

structure CompilationUnit where
  id : String
  file_path : String
  start_line : Int
  end_line : Int
  type : UnitType
  name : String
  content_hash : String
  dependencies : List String
  dependents : List String
  state : UnitState
  cached_output : String
  cache_timestamp : Int
  cache_valid : Bool
deriving DecidableEq

/-- CompilationUnit default constructor. -/
def CompilationUnit.default : CompilationUnit :=
  ⟨"", "", 0, 0, UnitType.LINE, "", "", [], [], UnitState.UNKNOWN, "", 0, false⟩

structure UnitManager where
  units : List (String × CompilationUnit)
  file_units : List (String × List String)
deriving DecidableEq

def UnitManager.empty : UnitManager := ⟨[], []⟩

def get_unit (um : UnitManager) (id : String) : Option CompilationUnit :=
  assocFind um.units id

def add_unit (um : UnitManager) (u : CompilationUnit) : UnitManager :=
  { units := assocInsert um.units u.id u
    file_units :=
      assocInsert um.file_units u.file_path
        (((assocFind um.file_units u.file_path).getD []) ++ [u.id]) }

def remove_unit (um : UnitManager) (id : String) : UnitManager :=
  match get_unit um id with
  | none => um
  | some u =>
    let fu := assocInsert um.file_units u.file_path
      (((assocFind um.file_units u.file_path).getD []).filter (fun x => x != id))
    let units1 := u.dependencies.foldl
      (fun acc dep_id =>
        assocUpdate acc dep_id
          (fun d => { d with dependents := d.dependents.filter (fun x => x != id) }))
      um.units
    { units := assocErase units1 id, file_units := fu }

def add_dependency (um : UnitManager) (from_id to_id : String) : UnitManager :=
  match get_unit um from_id, get_unit um to_id with
  | some _, some _ =>
    let units1 := assocUpdate um.units from_id (fun f =>
      if to_id ∈ f.dependencies then f
      else { f with dependencies := f.dependencies ++ [to_id] })
    let units2 := assocUpdate units1 to_id (fun t =>
      if from_id ∈ t.dependents then t
      else { t with dependents := t.dependents ++ [from_id] })
    { um with units := units2 }
  | _, _ => um

def remove_dependency (um : UnitManager) (from_id to_id : String) : UnitManager :=
  let units1 := assocUpdate um.units from_id
    (fun f => { f with dependencies := f.dependencies.filter (fun x => x != to_id) })
  let units2 := assocUpdate units1 to_id
    (fun t => { t with dependents := t.dependents.filter (fun x => x != from_id) })
  { um with units := units2 }

/-- get_units_by_file keeping each lookup key next to the found unit: the C++
function returns pointers into the map, so callers can mutate the entry they
came from.  The sort is by ascending start_line. -/
def file_unit_pairs (um : UnitManager) (file_path : String) :
    List (String × CompilationUnit) :=
  let ids := (assocFind um.file_units file_path).getD []
  let found := ids.filterMap (fun id => (get_unit um id).map (fun u => (id, u)))
  found.insertionSort (fun a b => a.2.start_line ≤ b.2.start_line)

def get_units_by_file (um : UnitManager) (file_path : String) : List CompilationUnit :=
  (file_unit_pairs um file_path).map (·.2)

def get_units_in_range (um : UnitManager) (file_path : String) (start endL : Int) :
    List (String × CompilationUnit) :=
  (file_unit_pairs um file_path).filter
    (fun p => decide (p.2.start_line ≤ endL ∧ start ≤ p.2.end_line))

/-! ## Affected-set closure (UnitManager::collect_affected_recursive)

The recursion is depth-first with a visited set; the Lean embedding supplies
fuel, and `get_affected_units` passes enough fuel for the traversal to run to
completion (proved below), which also witnesses termination on cycles. -/

def depList (um : UnitManager) (id : String) : List String :=
  match get_unit um id with
  | some u => u.dependents
  | none => []

def collect_affected (um : UnitManager) : Nat → String → Finset String → Finset String
  | 0, _, visited => visited
  | fuel + 1, id, visited =>
    if id ∈ visited then visited
    else
      (depList um id).foldl (fun acc d => collect_affected um fuel d acc)
        (insert id visited)

def allIds (um : UnitManager) : List String :=
  um.units.map (·.1) ++ (um.units.map (fun e => e.2.dependents)).flatten

/-- UnitManager::get_affected_units.  The C++ copies an unordered_set into a
vector in unspecified order, so the result is modelled as the set itself. -/
def get_affected_units (um : UnitManager) (changed_id : String) : Finset String :=
  (collect_affected um ((allIds um).length + 1) changed_id ∅).erase changed_id

/-! ## Change detector (ChangeDetector) -/

structure Snapshot where
  file_path : String
  content_hash : String
  line_hashes : List String
  units : List (String × CompilationUnit)
  timestamp : Int
deriving DecidableEq

/-- ChangeDetector::create_snapshot.  The wall-clock timestamp is modelled as
zero; no claim concerns it. -/
def create_snapshot (file_path : String) (content : List Nat) : Snapshot :=
  ⟨file_path, compute_hash content, (split_lines content).map compute_line_hash, [], 0⟩

/-- One row of the LCS table of ChangeDetector::compute_lcs: `prev` is row
i as a function of the column, `x` is old_lines[i], and the result is row
i+1, filled left to right exactly as the inner loop does. -/
def lcsRow (newL : List String) (prev : Nat → Nat) (x : String) : Nat → Nat
  | 0 => 0
  | j + 1 =>
    if x = newL.getD j "" then prev j + 1
    else max (prev (j + 1)) (lcsRow newL prev x j)

/-- The LCS dynamic-programming table of ChangeDetector::compute_lcs, row by
row; lcsDp oldL newL i j is dp[i][j] of the source. -/
def lcsDp (oldL newL : List String) : Nat → Nat → Nat
  | 0 => fun _ => 0
  | i + 1 => lcsRow newL (lcsDp oldL newL i) (oldL.getD i "")

/-- The backtrace loop of ChangeDetector::compute_lcs from state (i+1, ·),
where `prevB` is the backtrace from states (i, ·). -/
def lcsBackRow (oldL newL : List String) (prevB : Nat → List (Nat × Nat))
    (i : Nat) : Nat → List (Nat × Nat)
  | 0 => []
  | j + 1 =>
    if oldL.getD i "" = newL.getD j "" then (i, j) :: prevB j
    else if lcsDp oldL newL i (j + 1) > lcsDp oldL newL (i + 1) j then
      prevB (j + 1)
    else lcsBackRow oldL newL prevB i j

/-- The backtrace loop of ChangeDetector::compute_lcs, producing matched
(old index, new index) pairs in decreasing order. -/
def lcsBack (oldL newL : List String) : Nat → Nat → List (Nat × Nat)
  | 0 => fun _ => []
  | i + 1 => lcsBackRow oldL newL (lcsBack oldL newL i) i

def compute_lcs (oldL newL : List String) : List (Nat × Nat) :=
  (lcsBack oldL newL oldL.length newL.length).reverse

/-- ChangeDetector::get_changed_lines: 1-based new-side line numbers whose
index is not matched by the LCS backtrace. -/
def get_changed_lines (old_snap new_snap : Snapshot) : List Nat :=
  let lcs := compute_lcs old_snap.line_hashes new_snap.line_hashes
  let lcsNew := lcs.map (·.2)
  (List.range new_snap.line_hashes.length).filterMap
    (fun i => if lcsNew.contains i then none else some (i + 1))

/-! ## Compilation cache (CompilationCache)

The hit/miss statistics counters and entry timestamps are mutable bookkeeping
with no bearing on any claim; timestamps are modelled as zero and the counters
are omitted. -/

structure CacheEntry where
  output : String
  content_hash : String
  timestamp : Int
deriving DecidableEq

structure CompilationCache where
  entries : List (String × CacheEntry)
deriving DecidableEq

def cache_get (c : CompilationCache) (unit_id : String) : String :=
  ((assocFind c.entries unit_id).map (·.output)).getD ""

def cache_is_valid (c : CompilationCache) (unit_id current_hash : String) : Bool :=
  match assocFind c.entries unit_id with
  | none => false
  | some e => e.content_hash == current_hash

def cache_put (c : CompilationCache) (unit_id output content_hash : String) :
    CompilationCache :=
  ⟨assocInsert c.entries unit_id ⟨output, content_hash, 0⟩⟩

/-! ## Incremental engine (IncrementalEngine) -/

structure ChangeRecord where
  unit_id : String
  change_type : UnitState
  old_start_line : Int
  old_end_line : Int
  new_start_line : Int
  new_end_line : Int
  reason : String
deriving DecidableEq

structure IncrementalEngine where
  units : UnitManager
  cache : CompilationCache
  snapshots : List (String × Snapshot)
  units_to_compile : List String
deriving DecidableEq

/-- Output fragment chosen for one unit inside get_combined_output: the unit
cache when valid, else the compilation cache when its hash matches, else
nothing. -/
def fragment (cache : CompilationCache) (u : CompilationUnit) : String :=
  if u.cache_valid then u.cached_output
  else if cache_is_valid cache u.id u.content_hash then cache_get cache u.id
  else ""

/-- The concatenation loop of get_combined_output: a newline is written before
any non-empty fragment whose unit index is positive. -/
def combineLoop : List String → Nat → String → String
  | [], _, acc => acc
  | f :: rest, i, acc =>
    combineLoop rest (i + 1)
      (if f = "" then acc else if i > 0 then acc ++ "\n" ++ f else acc ++ f)

def get_combined_output (eng : IncrementalEngine) (file_path : String) : String :=
  combineLoop ((get_units_by_file eng.units file_path).map (fragment eng.cache)) 0 ""

/-- Concatenation with exactly one newline between consecutive elements, as
the claim words the separator behaviour of get_combined_output. -/
def interNewline : List String → String
  | [] => ""
  | [x] => x
  | x :: rest => x ++ "\n" ++ interNewline rest

/-- Concatenation of the if-present separator and fragment contributions of
every unit after the first, used to state what the loop of
get_combined_output produces. -/
def tailJoin : List String → String
  | [] => ""
  | f :: rest => (if f = "" then "" else "\n" ++ f) ++ tailJoin rest

/-- The amended reading of the combined output: the non-empty fragments joined
by single newlines, with one leading newline when the first unit of the file
contributes no fragment but a later one does. -/
def combined_spec (frs : List String) : String :=
  let ne := frs.filter (fun f => f != "")
  match frs with
  | [] => ""
  | f :: _ =>
    if f = "" then (if ne.isEmpty then "" else "\n" ++ interNewline ne)
    else interNewline ne

/-- What the original claim asserts for C4: the container strictly contains
the line range of the inner unit. -/
def strictly_contains (p u : CompilationUnit) : Prop :=
  p.start_line ≤ u.start_line ∧ u.end_line ≤ p.end_line ∧
    (p.start_line < u.start_line ∨ u.end_line < p.end_line)

instance (p u : CompilationUnit) : Decidable (strictly_contains p u) := by
  unfold strictly_contains
  exact inferInstance

def is_structural (t : UnitType) : Bool :=
  t == UnitType.FUNCTION || t == UnitType.CLASS

/-- Set a unit state and invalidate its cache flag through the map entry at
`key` (the C++ mutates through a pointer into the map). -/
def markUnit (um : UnitManager) (key : String) (st : UnitState) : UnitManager :=
  { um with
    units := assocUpdate um.units key
      (fun u => { u with state := st, cache_valid := false }) }

def setUnitState (um : UnitManager) (key : String) (st : UnitState) : UnitManager :=
  { um with units := assocUpdate um.units key (fun u => { u with state := st }) }

def listInsert (l : List String) (x : String) : List String :=
  if x ∈ l then l else l ++ [x]

def dedupList (l : List String) : List String := l.foldl listInsert []

/-- The inner scan of expand_to_boundaries: over the file units of the
current manager, every distinct structural unit whose range covers the
affected unit (non-strictly on both ends) is marked AFFECTED with an invalid
cache and its id joins the expanded set. -/
def expandInner (file_path id : String) (u : CompilationUnit)
    (st : UnitManager × List String) : UnitManager × List String :=
  (file_unit_pairs st.1 file_path).foldl
    (fun st2 p =>
      if p.2.id == id then st2
      else if decide (p.2.start_line ≤ u.start_line ∧ u.end_line ≤ p.2.end_line) then
        if is_structural p.2.type then
          (markUnit st2.1 p.1 UnitState.AFFECTED, listInsert st2.2 p.2.id)
        else st2
      else st2)
    st

/-- One iteration of the expand_to_boundaries loop: an id whose unit is
missing or already structural is skipped, anything else is scanned for
structural containers. -/
def expandStep (file_path : String) (st : UnitManager × List String) (id : String) :
    UnitManager × List String :=
  match get_unit st.1 id with
  | none => st
  | some u => if is_structural u.type then st else expandInner file_path id u st

/-- IncrementalEngine::expand_to_boundaries.  The expanded unordered_set is
modelled as an insertion-ordered duplicate-free list; the containment test the
source performs is non-strict on both ends. -/
def expand_to_boundaries (um0 : UnitManager) (file_path : String)
    (unit_ids : List String) : UnitManager × List String :=
  unit_ids.foldl (expandStep file_path) (um0, dedupList unit_ids)

/-- A compilation unit with the two fields the expansion marking writes
(state and cache_valid) normalized away; two units with the same core are
interchangeable for every test the expansion loop performs. -/
def unitCore (u : CompilationUnit) : CompilationUnit :=
  { u with state := UnitState.UNKNOWN, cache_valid := false }

def pairCore (p : String × CompilationUnit) : String × CompilationUnit :=
  (p.1, unitCore p.2)

/-- Two managers that agree on everything except unit states and cache
validity flags. -/
def coreEq (um0 um : UnitManager) : Prop :=
  um.file_units = um0.file_units ∧
    ∀ q, (get_unit um q).map unitCore = (get_unit um0 q).map unitCore

/-- The test the expansion scan applies to a candidate container pair. -/
def expandCond (id : String) (u : CompilationUnit) (p : String × CompilationUnit) :
    Prop :=
  p.2.id ≠ id ∧ p.2.start_line ≤ u.start_line ∧ u.end_line ≤ p.2.end_line ∧
    is_structural p.2.type = true

/-- The id `x` is added by the expansion of affected id `id`: the unit of
`id` exists, is not structural, and some distinct file unit with id field `x`
non-strictly contains its range and is structural. -/
def expandQual (um : UnitManager) (file_path id x : String) : Prop :=
  ∃ u, get_unit um id = some u ∧ is_structural u.type = false ∧
    ∃ p ∈ file_unit_pairs um file_path, expandCond id u p ∧ p.2.id = x

/-- Same as expandQual but selecting the map key of the container, which is
where the marking lands. -/
def expandQualKey (um : UnitManager) (file_path id k : String) : Prop :=
  ∃ u, get_unit um id = some u ∧ is_structural u.type = false ∧
    ∃ p ∈ file_unit_pairs um file_path, expandCond id u p ∧ p.1 = k

/-- The marking pass of update_source over the changed lines: each containing
unit becomes MODIFIED with an invalid cache, and everything downstream of it
becomes AFFECTED with an invalid cache; the affected unordered_set is modelled
as an insertion-ordered list.  The reverse closure of the source iterates an
unordered_set in unspecified order, modelled here in sorted order; all claim
statements about the result are order-insensitive. -/
def markChangedUnits (um0 : UnitManager) (file_path : String) (changed : List Nat) :
    UnitManager × List String :=
  changed.foldl
    (fun st line =>
      (get_units_in_range st.1 file_path (Int.ofNat line) (Int.ofNat line)).foldl
        (fun st2 p =>
          let af1 := listInsert st2.2 p.2.id
          let um1 := markUnit st2.1 p.1 UnitState.MODIFIED
          let deps := (get_affected_units um1 p.2.id).sort (· ≤ ·)
          deps.foldl
            (fun st3 dep_id =>
              (markUnit st3.1 dep_id UnitState.AFFECTED, listInsert st3.2 dep_id))
            (um1, af1))
        st)
    (um0, [])

/-- The snapshot unit map installed at the end of update_source: a copy of the
current units of the file keyed by their id field. -/
def snapshotUnits (um : UnitManager) (file_path : String) :
    List (String × CompilationUnit) :=
  (file_unit_pairs um file_path).foldl (fun m p => assocInsert m p.2.id p.2) []

/-- IncrementalEngine::update_source.  Returns the change records and the
updated engine. -/
def update_source (eng : IncrementalEngine) (file_path : String)
    (new_content : List Nat) : List ChangeRecord × IncrementalEngine :=
  let new_snap := create_snapshot file_path new_content
  match assocFind eng.snapshots file_path with
  | some old_snap =>
    let changed := get_changed_lines old_snap new_snap
    let step1 := markChangedUnits eng.units file_path changed
    let step2 := expand_to_boundaries step1.1 file_path step1.2
    let um2 := step2.1
    let affected := step2.2
    let changes := affected.filterMap
      (fun id => (get_unit um2 id).map
        (fun u => ChangeRecord.mk id u.state 0 0 u.start_line u.end_line ""))
    let snap2 := { new_snap with units := snapshotUnits um2 file_path }
    (changes,
      { eng with
        units := um2
        snapshots := assocInsert eng.snapshots file_path snap2
        units_to_compile := affected })
  | none =>
    let pairs := file_unit_pairs eng.units file_path
    let um2 := pairs.foldl (fun um p => setUnitState um p.1 UnitState.ADDED) eng.units
    let changes := pairs.map
      (fun p => ChangeRecord.mk p.2.id UnitState.ADDED 0 0 p.2.start_line p.2.end_line "")
    let snap2 := { new_snap with units := snapshotUnits um2 file_path }
    (changes,
      { eng with
        units := um2
        snapshots := assocInsert eng.snapshots file_path snap2
        units_to_compile := eng.units_to_compile ++ pairs.map (fun p => p.2.id) })

/-! ## LRU cache (smart_cache.cpp)

The usage list holds the most recently used key at the front; each map entry
keeps an iterator to its list node, modelled by locating the key in the list.
A put that must evict reads back() of the usage list, which is undefined when
that list is empty, hence the Option result. -/

structure LRUCache where
  max_size : Nat
  cache : List (String × String)
  usage_order : List String
deriving DecidableEq

def lru_put (c : LRUCache) (key value : String) : Option LRUCache :=
  if (assocFind c.cache key).isSome then
    some { c with
      cache := assocInsert c.cache key value
      usage_order := key :: c.usage_order.erase key }
  else if c.cache.length ≥ c.max_size then
    match c.usage_order.getLast? with
    | none => none
    | some lru_key =>
      some { c with
        cache := assocInsert (assocErase c.cache lru_key) key value
        usage_order := key :: c.usage_order.dropLast }
  else
    some { c with
      cache := assocInsert c.cache key value
      usage_order := key :: c.usage_order }

def lru_get (c : LRUCache) (key : String) : String × LRUCache :=
  match assocFind c.cache key with
  | none => ("", c)
  | some v => (v, { c with usage_order := key :: c.usage_order.erase key })

/-! ## LFU cache (smart_cache.cpp) -/

structure LFUEntry where
  value : String
  frequency : Nat
deriving DecidableEq

structure LFUCache where
  max_size : Nat
  min_frequency : Nat
  cache : List (String × LFUEntry)
  freq_map : List (Nat × List String)
deriving DecidableEq

def LFUCache.init (cap : Nat) : LFUCache := ⟨cap, 0, [], []⟩

def fmGet (fm : List (Nat × List String)) (f : Nat) : List String :=
  ((assocFind fm f).getD [])

/-- The frequency bump shared verbatim by LFUCache::put on an existing key and
LFUCache::get: move the key from its old frequency list to the front of the
next one, advancing min_frequency when the old list empties at it. -/
def lfu_bump (c : LFUCache) (key : String) (e : LFUEntry) (value : String) : LFUCache :=
  let old_freq := e.frequency
  let new_freq := old_freq + 1
  let fm1 := assocInsert c.freq_map old_freq ((fmGet c.freq_map old_freq).erase key)
  let minf :=
    if (fmGet fm1 old_freq).isEmpty && (old_freq == c.min_frequency) then
      c.min_frequency + 1
    else c.min_frequency
  let fm2 := assocInsert fm1 new_freq (key :: fmGet fm1 new_freq)
  { c with
    cache := assocInsert c.cache key ⟨value, new_freq⟩
    freq_map := fm2
    min_frequency := minf }

/-- LFUCache::put.  On success returns the new state and the evicted key, if
any; returns none when the source would call back() on an empty list. -/
def lfu_put (c : LFUCache) (key value : String) : Option (LFUCache × Option String) :=
  match assocFind c.cache key with
  | some e => some (lfu_bump c key e value, none)
  | none =>
    if c.cache.length ≥ c.max_size then
      match (fmGet c.freq_map c.min_frequency).getLast? with
      | none => none
      | some lfu_key =>
        let fm1 := assocInsert c.freq_map c.min_frequency
          ((fmGet c.freq_map c.min_frequency).dropLast)
        let cache1 := assocErase c.cache lfu_key
        let fm2 := assocInsert fm1 1 (key :: fmGet fm1 1)
        some ({ max_size := c.max_size, min_frequency := 1
                cache := assocInsert cache1 key ⟨value, 1⟩
                freq_map := fm2 }, some lfu_key)
    else
      let fm2 := assocInsert c.freq_map 1 (key :: fmGet c.freq_map 1)
      some ({ c with
        min_frequency := 1
        cache := assocInsert c.cache key ⟨value, 1⟩
        freq_map := fm2 }, none)

def lfu_get (c : LFUCache) (key : String) : String × LFUCache :=
  match assocFind c.cache key with
  | none => ("", c)
  | some e => (e.value, lfu_bump c key e e.value)

def lfu_remove (c : LFUCache) (key : String) : Bool × LFUCache :=
  match assocFind c.cache key with
  | none => (false, c)
  | some e =>
    let fm1 := assocInsert c.freq_map e.frequency ((fmGet c.freq_map e.frequency).erase key)
    let minf :=
      if (fmGet fm1 e.frequency).isEmpty && (e.frequency == c.min_frequency) then
        c.min_frequency + 1
      else c.min_frequency
    (true, { c with
      cache := assocErase c.cache key
      freq_map := fm1
      min_frequency := minf })

inductive LFUOp
  | put (k v : String)
  | get (k : String)
  | rem (k : String)

def lfu_step (c : LFUCache) : LFUOp → Option LFUCache
  | .put k v => (lfu_put c k v).map (·.1)
  | .get k => some (lfu_get c k).2
  | .rem k => some (lfu_remove c k).2

/-- Run a sequence of public LFU operations from a fresh cache of capacity
`cap`; none when some step hits undefined behaviour. -/
def lfu_run (cap : Nat) (ops : List LFUOp) : Option LFUCache :=
  ops.foldl (fun acc op => acc.bind (fun c => lfu_step c op)) (some (LFUCache.init cap))

/-! ## BuildCache key derivation (smart_cache.cpp)

calculate_string_hash applies std::hash of std::string, an
implementation-defined 64-bit hash, and renders it in lowercase hex without
padding.  The embedding is parametric in that hash function `h`; the
filesystem is a partial map from path bytes to content bytes, and
calculate_file_hash returns the empty string for a missing file without
hashing anything. -/

def hexNoPadAux (v : Nat) : List Char :=
  if _hv : v < 16 then [hexDigit v]
  else hexNoPadAux (v / 16) ++ [hexDigit (v % 16)]
termination_by v
decreasing_by
  exact Nat.div_lt_self (by omega) (by omega)

def hexNoPad (v : Nat) : String := String.mk (hexNoPadAux v)

def calculate_string_hash (h : List Nat → Nat) (input : List Nat) : String :=
  hexNoPad (h input)

def calculate_file_hash (h : List Nat → Nat) (fs : List Nat → Option (List Nat))
    (path : List Nat) : String :=
  match fs path with
  | none => ""
  | some content => calculate_string_hash h content

def asciiBytes (s : String) : List Nat := s.data.map Char.toNat

/-- The cache key computation shared verbatim by BuildCache::cache_build_result
and BuildCache::get_cached_build_result: a stringstream accumulates target,
hashed command and one component per dependency in supplied order, and the key
is the string hash of the accumulated stream. -/
def build_cache_key (h : List Nat → Nat) (fs : List Nat → Option (List Nat))
    (target command : List Nat) (dependencies : List (List Nat)) : String :=
  let stream0 := asciiBytes "target=" ++ target ++ asciiBytes ";command="
    ++ asciiBytes (calculate_string_hash h command) ++ [59]
  let stream := dependencies.foldl
    (fun acc dep =>
      acc ++ asciiBytes "dep=" ++ dep ++ [58]
        ++ asciiBytes (calculate_file_hash h fs dep) ++ [59])
    stream0
  calculate_string_hash h stream

/-- The declarative form of the same key: hash of the fully assembled string
with the dependency components flattened in supplied order. -/
def build_cache_key_spec (h : List Nat → Nat) (fs : List Nat → Option (List Nat))
    (target command : List Nat) (dependencies : List (List Nat)) : String :=
  calculate_string_hash h
    (asciiBytes "target=" ++ target ++ asciiBytes ";command="
      ++ asciiBytes (calculate_string_hash h command) ++ [59]
      ++ (dependencies.map
        (fun dep => asciiBytes "dep=" ++ dep ++ [58]
          ++ asciiBytes (calculate_file_hash h fs dep) ++ [59])).flatten)

/-- The key the claim asserts (C7): the section 4.A content hash, 16 hex
digits, applied to the stream whose inner hashes are also section 4.A content
hashes.  This is the comparison point for the refinement claim. -/
def claimed_build_key (fs : List Nat → Option (List Nat))
    (target command : List Nat) (dependencies : List (List Nat)) : String :=
  compute_hash_spec
    (asciiBytes "target=" ++ target ++ asciiBytes ";command="
      ++ asciiBytes (compute_hash_spec command) ++ [59]
      ++ (dependencies.map
        (fun dep => asciiBytes "dep=" ++ dep ++ [58]
          ++ (match fs dep with
              | none => []
              | some content => asciiBytes (compute_hash_spec content)) ++ [59])).flatten)

/-! ## Path predicates and invariants used by the statements -/

/-- A path along dependents edges from `x` to `z` all of whose nodes avoid the
set `v`.  Edges leave only stored units; an id mentioned in a dependents list
needs no stored unit of its own to be a path endpoint. -/
inductive AvoidPath (um : UnitManager) (v : Finset String) : String → String → Prop
  | refl (x : String) (hx : x ∉ v) : AvoidPath um v x x
  | step (x y z : String) (hx : x ∉ v) (hy : y ∈ depList um x)
      (h : AvoidPath um v y z) : AvoidPath um v x z

/-- The edge relation of the dependency graph in the dependents direction. -/
def depEdge (um : UnitManager) (a b : String) : Prop := b ∈ depList um a

/-- The internal consistency of an LFU cache state: frequency lists hold
exactly the cached keys of that frequency, without duplicates, and
min_frequency is a lower bound of all stored frequencies, which are
positive. -/
structure LFUInv (c : LFUCache) : Prop where
  nodupKeys : (c.cache.map (·.1)).Nodup
  memIff : ∀ f k, k ∈ fmGet c.freq_map f ↔
    ∃ e, assocFind c.cache k = some e ∧ e.frequency = f
  nodupFm : ∀ f, (fmGet c.freq_map f).Nodup
  minLe : ∀ k e, assocFind c.cache k = some e → c.min_frequency ≤ e.frequency
  freqPos : ∀ k e, assocFind c.cache k = some e → 1 ≤ e.frequency

/-! ## Concrete states used by witnesses and counterexamples -/

def unitA : CompilationUnit := { CompilationUnit.default with id := "a", file_path := "f" }

def unitB : CompilationUnit := { CompilationUnit.default with id := "b", file_path := "f" }

/-- Two units where b depends on a. -/
def umC5 : UnitManager :=
  add_dependency (add_unit (add_unit UnitManager.empty unitA) unitB) "b" "a"

def unitC3A : CompilationUnit :=
  { CompilationUnit.default with
    id := "u1", file_path := "f", start_line := 1, end_line := 1
    content_hash := "h1", cache_valid := false }

def unitC3B : CompilationUnit :=
  { CompilationUnit.default with
    id := "u2", file_path := "f", start_line := 2, end_line := 2
    cached_output := "X", cache_valid := true }

/-- An engine whose first unit of file f contributes no output fragment while
the second contributes "X". -/
def engC3 : IncrementalEngine :=
  ⟨add_unit (add_unit UnitManager.empty unitC3A) unitC3B, ⟨[]⟩, [], []⟩

def unitC4S : CompilationUnit :=
  { CompilationUnit.default with
    id := "s", file_path := "f", start_line := 1, end_line := 5
    type := UnitType.STATEMENT }

def unitC4G : CompilationUnit :=
  { CompilationUnit.default with
    id := "g", file_path := "f", start_line := 1, end_line := 5
    type := UnitType.FUNCTION }

/-- A statement unit and a function unit covering the same line range. -/
def umC4 : UnitManager := add_unit (add_unit UnitManager.empty unitC4S) unitC4G

/-- An engine that already holds a snapshot of file f and has a pending
compile list from elsewhere. -/
def engW1 : IncrementalEngine :=
  ⟨UnitManager.empty, ⟨[]⟩, [("f", create_snapshot "f" [])], ["old1"]⟩

/-- An engine with a unit of file f, no snapshot for f, and a pending compile
list from elsewhere. -/
def engW2 : IncrementalEngine :=
  ⟨add_unit UnitManager.empty unitC3A, ⟨[]⟩, [], ["old2"]⟩

/-- The LFU state after put(a, 1) on a fresh cache of capacity 1. -/
def lfuW : LFUCache := ⟨1, 1, [("a", ⟨"1", 1⟩)], [(1, ["a"])]⟩

/-! # Theorems -/

/-! ## Association list lemmas -/

theorem ite_beq_eq {κ α : Type} [DecidableEq κ] (a k : κ) (x y : α) (h : a = k) :
    (if a == k then x else y) = x := by simp [h]

theorem ite_beq_ne {κ α : Type} [DecidableEq κ] (a k : κ) (x y : α) (h : a ≠ k) :
    (if a == k then x else y) = y := by simp [h]

theorem assocFind_nil {κ α : Type} [DecidableEq κ] (k : κ) :
    assocFind ([] : List (κ × α)) k = none := rfl

theorem assocFind_cons_eq {κ α : Type} [DecidableEq κ] (e : κ × α) (m : List (κ × α))
    (k : κ) (h : e.1 = k) : assocFind (e :: m) k = some e.2 := by
  simp [assocFind, List.find?_cons_of_pos, h]

theorem assocFind_cons_ne {κ α : Type} [DecidableEq κ] (e : κ × α) (m : List (κ × α))
    (k : κ) (h : e.1 ≠ k) : assocFind (e :: m) k = assocFind m k := by
  unfold assocFind
  rw [List.find?_cons_of_neg]
  simpa using h

theorem assocFind_map_set_ne {κ α : Type} [DecidableEq κ] (m : List (κ × α)) (k k' : κ)
    (v : α) (hne : k' ≠ k) :
    assocFind (m.map (fun e => if e.1 == k then (k, v) else e)) k' = assocFind m k' := by
  induction m with
  | nil => rfl
  | cons e m ih =>
    rw [List.map_cons]
    by_cases he : e.1 = k
    · rw [ite_beq_eq _ _ _ _ he,
        assocFind_cons_ne _ _ _ (show ((k, v) : κ × α).1 ≠ k' from fun h => hne h.symm),
        assocFind_cons_ne _ _ _ (show e.1 ≠ k' from by rw [he]; exact fun h => hne h.symm)]
      exact ih
    · rw [ite_beq_ne _ _ _ _ he]
      by_cases he' : e.1 = k'
      · rw [assocFind_cons_eq _ _ _ he', assocFind_cons_eq _ _ _ he']
      · rw [assocFind_cons_ne _ _ _ he', assocFind_cons_ne _ _ _ he']
        exact ih

theorem assocFind_map_set_eq {κ α : Type} [DecidableEq κ] (m : List (κ × α)) (k : κ)
    (v : α) :
    assocFind (m.map (fun e => if e.1 == k then (k, v) else e)) k =
      if (assocFind m k).isSome then some v else none := by
  induction m with
  | nil => rfl
  | cons e m ih =>
    rw [List.map_cons]
    by_cases he : e.1 = k
    · rw [ite_beq_eq _ _ _ _ he, assocFind_cons_eq _ _ _ rfl,
        assocFind_cons_eq _ _ _ he]
      simp
    · rw [ite_beq_ne _ _ _ _ he, assocFind_cons_ne _ _ _ he, assocFind_cons_ne _ _ _ he]
      exact ih

theorem assocFind_append_none {κ α : Type} [DecidableEq κ] (m1 m2 : List (κ × α)) (k : κ)
    (h : assocFind m1 k = none) :
    assocFind (m1 ++ m2) k = assocFind m2 k := by
  induction m1 with
  | nil => rfl
  | cons e m ih =>
    rw [List.cons_append]
    by_cases he : e.1 = k
    · rw [assocFind_cons_eq _ _ _ he] at h
      exact absurd h (by simp)
    · rw [assocFind_cons_ne _ _ _ he] at h
      rw [assocFind_cons_ne _ _ _ he]
      exact ih h

theorem assocFind_append_left {κ α : Type} [DecidableEq κ] (m1 m2 : List (κ × α)) (k : κ)
    (v : α) (h : assocFind m1 k = some v) :
    assocFind (m1 ++ m2) k = some v := by
  induction m1 with
  | nil => exact absurd h (by simp [assocFind])
  | cons e m ih =>
    rw [List.cons_append]
    by_cases he : e.1 = k
    · rw [assocFind_cons_eq _ _ _ he] at h
      rw [assocFind_cons_eq _ _ _ he]
      exact h
    · rw [assocFind_cons_ne _ _ _ he] at h
      rw [assocFind_cons_ne _ _ _ he]
      exact ih h

theorem assocFind_insert {κ α : Type} [DecidableEq κ] (m : List (κ × α)) (k k' : κ)
    (v : α) :
    assocFind (assocInsert m k v) k' = if k' = k then some v else assocFind m k' := by
  unfold assocInsert
  by_cases hf : (m.find? (fun e => e.1 == k)).isSome
  · rw [if_pos hf]
    by_cases hk : k' = k
    · subst hk
      rw [assocFind_map_set_eq, if_pos rfl]
      have hs : (assocFind m k').isSome := by
        simpa [assocFind, Option.isSome_map] using hf
      simp [hs]
    · rw [assocFind_map_set_ne m k k' v hk, if_neg hk]
  · rw [if_neg hf]
    have hnone : assocFind m k = none := by
      rcases h : m.find? (fun e => e.1 == k) with _ | e
      · simp [assocFind, h]
      · rw [h] at hf; simp at hf
    by_cases hk : k' = k
    · subst hk
      rw [if_pos rfl, assocFind_append_none m [(k', v)] k' hnone,
        assocFind_cons_eq _ _ _ rfl]
    · rw [if_neg hk]
      rcases h : assocFind m k' with _ | w
      · rw [assocFind_append_none m [(k, v)] k' h,
          assocFind_cons_ne _ _ _ (show ((k, v) : κ × α).1 ≠ k' from fun hh => hk hh.symm)]
        rfl
      · exact assocFind_append_left m [(k, v)] k' w h

theorem assocFind_erase {κ α : Type} [DecidableEq κ] (m : List (κ × α)) (k k' : κ) :
    assocFind (assocErase m k) k' = if k' = k then none else assocFind m k' := by
  induction m with
  | nil => simp [assocErase, assocFind]
  | cons e m ih =>
    simp only [assocErase, List.filter_cons] at ih ⊢
    by_cases he : e.1 = k
    · rw [show (e.1 != k) = false by simp [he]]
      simp only [if_neg Bool.false_ne_true]
      rw [ih]
      by_cases hk : k' = k
      · simp [hk]
      · rw [if_neg hk, if_neg hk,
          assocFind_cons_ne _ _ _ (show e.1 ≠ k' from by rw [he]; exact fun h => hk h.symm)]
    · rw [show (e.1 != k) = true by simp [he]]
      rw [if_pos rfl]
      by_cases he' : e.1 = k'
      · have hk : k' ≠ k := fun h => he (h ▸ he')
        rw [assocFind_cons_eq _ _ _ he', if_neg hk, assocFind_cons_eq _ _ _ he']
      · rw [assocFind_cons_ne _ _ _ he', ih]
        by_cases hk : k' = k
        · simp [hk]
        · rw [if_neg hk, if_neg hk, assocFind_cons_ne _ _ _ he']

theorem assocFind_update {κ α : Type} [DecidableEq κ] (m : List (κ × α)) (k k' : κ)
    (f : α → α) :
    assocFind (assocUpdate m k f) k' =
      if k' = k then (assocFind m k).map f else assocFind m k' := by
  induction m with
  | nil => simp [assocUpdate, assocFind]
  | cons e m ih =>
    simp only [assocUpdate, List.map_cons] at ih ⊢
    by_cases he : e.1 = k
    · rw [ite_beq_eq _ _ _ _ he]
      by_cases hk : k' = k
      · subst hk
        rw [if_pos rfl, assocFind_cons_eq _ _ _ rfl, assocFind_cons_eq _ _ _ he]
        rfl
      · rw [if_neg hk,
          assocFind_cons_ne _ _ _ (show ((k, f e.2) : κ × α).1 ≠ k' from fun h => hk h.symm),
          assocFind_cons_ne _ _ _ (show e.1 ≠ k' from by rw [he]; exact fun h => hk h.symm),
          ih, if_neg hk]
    · rw [ite_beq_ne _ _ _ _ he]
      by_cases he' : e.1 = k'
      · have hk : k' ≠ k := fun h => he (h ▸ he')
        rw [assocFind_cons_eq _ _ _ he', if_neg hk, assocFind_cons_eq _ _ _ he']
      · rw [assocFind_cons_ne _ _ _ he', assocFind_cons_ne _ _ _ he', ih,
          assocFind_cons_ne _ _ _ he]

/-! ## Claim C6: the content hash -/

theorem fnv1a_foldl_congr (bs : List Nat) (hb : ∀ b ∈ bs, b < 128) (acc : Nat) :
    bs.foldl (fun h b => ((h ^^^ signedCharToU64 b) * fnvPrime) % u64size) acc =
      bs.foldl (fun h b => ((h ^^^ b) * fnvPrime) % u64size) acc := by
  induction bs generalizing acc with
  | nil => simp
  | cons b bs ih =>
    have hb0 : b < 128 := hb b (List.mem_cons_self b bs)
    have hs : signedCharToU64 b = b := by
      unfold signedCharToU64
      rw [if_pos hb0]
    simp only [List.foldl_cons, hs]
    exact ih (fun x hx => hb x (List.mem_cons_of_mem b hx)) _

theorem hexPadAux_length (k : Nat) : ∀ (v : Nat) (acc : List Char),
    (hexPadAux k v acc).length = k + acc.length := by
  induction k with
  | zero => intro v acc; simp [hexPadAux]
  | succ k ih =>
    intro v acc
    rw [hexPadAux, ih]
    simp only [List.length_cons]
    omega

/-- Claim C6 (corrected): compute_hash agrees with the standard FNV-1a hash
(offset basis 0xcbf29ce484222325, prime 0x100000001b3, each byte XORed as an
unsigned octet) rendered as 16 zero-padded lowercase hex digits, provided
every input byte is below 0x80; the rendered string always has exactly 16
characters.  (Bytes at or above 0x80 are sign-extended through the signed
char before the XOR, diverging from the claim; see the counterexample.) -/
theorem c6_compute_hash_fnv1a (bs : List Nat) (hb : ∀ b ∈ bs, b < 128) :
    compute_hash bs = compute_hash_spec bs ∧ (compute_hash bs).length = 16 := by
  constructor
  · unfold compute_hash compute_hash_spec fnv1a_hash fnv1a_spec
    rw [fnv1a_foldl_congr bs hb]
  · unfold compute_hash hexPad16
    have hl : ∀ l : List Char, (String.mk l).length = l.length := fun _ => rfl
    rw [hl, hexPadAux_length]
    rfl

/-- Witness for c6_compute_hash_fnv1a at the bytes of "abc". -/
theorem c6_compute_hash_fnv1a_witness :
    (∀ b ∈ ([97, 98, 99] : List Nat), b < 128) ∧
      (compute_hash [97, 98, 99] = compute_hash_spec [97, 98, 99] ∧
        (compute_hash [97, 98, 99]).length = 16) :=
  ⟨by decide, c6_compute_hash_fnv1a [97, 98, 99] (by decide)⟩

/-- Counterexample to claim C6 as stated: on the single byte 0xff the source
hash sign-extends the byte, so the result differs from the standard FNV-1a
rendering of the same input. -/
theorem c6_counterexample : compute_hash [255] ≠ compute_hash_spec [255] := by decide

/-! ## Claim C9: the LRU eviction scenario -/

/-- Claim C9 (confirmed): on a capacity-2 LRU cache, after put(a,1),
put(b,2), get(a), put(c,3), the subsequent gets return "1" for a (kept,
recently used), "" for b (evicted as least recently used) and "3" for c. -/
theorem c9_lru_eviction_order :
    (lru_put (LRUCache.mk 2 [] []) "a" "1").bind (fun s1 =>
      (lru_put s1 "b" "2").bind (fun s2 =>
        (lru_put (lru_get s2 "a").2 "c" "3").map (fun s4 =>
          let ra := lru_get s4 "a"
          let rb := lru_get ra.2 "b"
          let rc := lru_get rb.2 "c"
          (ra.1, rb.1, rc.1)))) = some ("1", "", "3") := by decide

/-! ## Claim C5: edge symmetry across unit removal -/

/-- Claim C5 is a code bug (acknowledged by the specification): after
remove_unit("a") on a manager where b depends on a, the id "a" is gone from
the unit map yet still sits in the dependencies list of b, so the edge
symmetry invariant is violated by the source.  This theorem evaluates the
embedded source at the failing input. -/
theorem c5_remove_unit_dangling_edge :
    get_unit (remove_unit umC5 "a") "a" = none ∧
      (get_unit (remove_unit umC5 "a") "b").map (fun u => u.dependencies) =
        some ["a"] := by decide

/-! ## Claim C1: the affected-set closure -/

theorem assocFind_mem_keys {κ α : Type} [DecidableEq κ] (m : List (κ × α)) (k : κ) (v : α)
    (h : assocFind m k = some v) : k ∈ m.map (·.1) := by
  induction m with
  | nil => simp [assocFind] at h
  | cons e m ih =>
    by_cases he : e.1 = k
    · simp [he]
    · rw [assocFind_cons_ne _ _ _ he] at h
      simp [ih h]

theorem collect_affected_subset (um : UnitManager) :
    ∀ (n : Nat) (id : String) (v : Finset String), v ⊆ collect_affected um n id v := by
  intro n
  induction n with
  | zero => intro id v; simp [collect_affected]
  | succ n ih =>
    intro id v
    simp only [collect_affected]
    by_cases h : id ∈ v
    · rw [if_pos h]
    · rw [if_neg h]
      have hfold : ∀ (ds : List String) (w : Finset String),
          w ⊆ ds.foldl (fun acc d => collect_affected um n d acc) w := by
        intro ds
        induction ds with
        | nil => intro w; simp
        | cons d ds ihd =>
          intro w
          simp only [List.foldl_cons]
          exact (ih d w).trans (ihd _)
      exact (Finset.subset_insert id v).trans (hfold _ _)

theorem avoidPath_not_mem {um : UnitManager} {v : Finset String} {x z : String}
    (h : AvoidPath um v x z) : x ∉ v := by
  cases h with
  | refl _ hx => exact hx
  | step _ _ _ hx _ _ => exact hx

theorem avoidPath_mono {um : UnitManager} {v w : Finset String} (hvw : v ⊆ w) {x z : String}
    (h : AvoidPath um w x z) : AvoidPath um v x z := by
  induction h with
  | refl a ha => exact .refl a (fun hm => ha (hvw hm))
  | step a b c ha hb _ ih => exact .step a b c (fun hm => ha (hvw hm)) hb ih

theorem avoidPath_trans {um : UnitManager} {v : Finset String} {x y z : String}
    (h1 : AvoidPath um v x y) (h2 : AvoidPath um v y z) : AvoidPath um v x z := by
  revert h2
  induction h1 with
  | refl a _ => exact fun h2 => h2
  | step a b c ha hb _ ih => exact fun h2 => AvoidPath.step a b z ha hb (ih h2)

/-- Splitting a path that avoids `v` at the last visit of a node `a`: either
the path avoids `a` entirely, or it ends at `a`, or a suffix starts with an
edge out of `a` and avoids both `a` and `v`. -/
theorem avoidPath_split {um : UnitManager} {v : Finset String} {x z : String}
    (h : AvoidPath um v x z) (a : String) :
    AvoidPath um (insert a v) x z ∨ z = a ∨
      ∃ d ∈ depList um a, AvoidPath um (insert a v) d z := by
  induction h with
  | refl b hb =>
    by_cases hba : b = a
    · exact Or.inr (Or.inl hba)
    · refine Or.inl (.refl b (fun hm => ?_))
      rcases Finset.mem_insert.mp hm with h1 | h1
      · exact hba h1
      · exact hb h1
  | step b y c hb hy _ ih =>
    rcases ih with h1 | h2 | h3
    · by_cases hba : b = a
      · subst hba
        exact Or.inr (Or.inr ⟨y, hy, h1⟩)
      · refine Or.inl (.step b y c (fun hm => ?_) hy h1)
        rcases Finset.mem_insert.mp hm with hh | hh
        · exact hba hh
        · exact hb hh
    · exact Or.inr (Or.inl h2)
    · exact Or.inr (Or.inr h3)

/-- Saturation: when `w1` extends `w` by exactly the nodes reachable from
`d1` while avoiding `w`, any path avoiding `w` either ends inside `w1` or can
be rerouted to avoid all of `w1`. -/
theorem avoidPath_sat {um : UnitManager} {w w1 : Finset String} {d1 : String}
    (hchar : ∀ t, t ∈ w1 ↔ t ∈ w ∨ AvoidPath um w d1 t) {x z : String}
    (h : AvoidPath um w x z) : z ∈ w1 ∨ AvoidPath um w1 x z := by
  induction h with
  | refl b hb =>
    by_cases hbw : b ∈ w1
    · exact Or.inl hbw
    · exact Or.inr (.refl b hbw)
  | step b y c hb hy hrest ih =>
    rcases ih with h1 | h2
    · exact Or.inl h1
    · by_cases hbw : b ∈ w1
      · rcases (hchar b).mp hbw with hbw' | hpath
        · exact absurd hbw' hb
        · have hbc : AvoidPath um w b c := .step b y c hb hy hrest
          exact Or.inl ((hchar c).mpr (Or.inr (avoidPath_trans hpath hbc)))
      · exact Or.inr (.step b y c hbw hy h2)

/-- The DFS with visited set computes, with enough fuel, exactly the initial
visited set plus the nodes reachable from the start while avoiding it. -/
theorem collect_affected_char (um : UnitManager) :
    ∀ (n : Nat) (id : String) (v : Finset String),
      ((allIds um).toFinset \ v).card < n →
      ∀ z, z ∈ collect_affected um n id v ↔ z ∈ v ∨ AvoidPath um v id z := by
  intro n
  induction n with
  | zero => intro id v hc; exact absurd hc (Nat.not_lt_zero _)
  | succ n ih =>
    intro id v hc z
    simp only [collect_affected]
    by_cases hid : id ∈ v
    · rw [if_pos hid]
      constructor
      · exact Or.inl
      · rintro (h | h)
        · exact h
        · exact absurd hid (avoidPath_not_mem h)
    · rw [if_neg hid]
      have hfold : ∀ (ds : List String) (w : Finset String),
          ((allIds um).toFinset \ w).card < n →
          ∀ z, z ∈ ds.foldl (fun acc d => collect_affected um n d acc) w ↔
            z ∈ w ∨ ∃ d ∈ ds, AvoidPath um w d z := by
        intro ds
        induction ds with
        | nil => intro w hw z; simp
        | cons d ds ihd =>
          intro w hw z
          simp only [List.foldl_cons]
          have hchar : ∀ t, t ∈ collect_affected um n d w ↔ t ∈ w ∨ AvoidPath um w d t :=
            ih d w hw
          have hsub : w ⊆ collect_affected um n d w := collect_affected_subset um n d w
          have hw1 : ((allIds um).toFinset \ collect_affected um n d w).card < n :=
            lt_of_le_of_lt
              (Finset.card_le_card
                (Finset.sdiff_subset_sdiff (Finset.Subset.refl _) hsub)) hw
          rw [ihd (collect_affected um n d w) hw1 z]
          constructor
          · rintro (hz | ⟨e, he, hp⟩)
            · rcases (hchar z).mp hz with h1 | h1
              · exact Or.inl h1
              · exact Or.inr ⟨d, List.mem_cons_self d ds, h1⟩
            · exact Or.inr ⟨e, List.mem_cons_of_mem d he, avoidPath_mono hsub hp⟩
          · rintro (hz | ⟨e, he, hp⟩)
            · exact Or.inl ((hchar z).mpr (Or.inl hz))
            · rcases List.mem_cons.mp he with he1 | he1
              · exact Or.inl ((hchar z).mpr (Or.inr (he1 ▸ hp)))
              · rcases avoidPath_sat hchar hp with h1 | h1
                · exact Or.inl h1
                · exact Or.inr ⟨e, he1, h1⟩
      cases hu : get_unit um id with
      | none =>
        have hdl : depList um id = [] := by simp [depList, hu]
        rw [hdl]
        simp only [List.foldl_nil]
        constructor
        · intro hz
          rcases Finset.mem_insert.mp hz with h | h
          · exact Or.inr (by rw [h]; exact .refl id hid)
          · exact Or.inl h
        · rintro (h | h)
          · exact Finset.mem_insert_of_mem h
          · cases h with
            | refl => exact Finset.mem_insert_self id v
            | step _ y _ _ hy _ => rw [hdl] at hy; cases hy
      | some u =>
        have hidU : id ∈ (allIds um).toFinset := by
          simp only [List.mem_toFinset, allIds, List.mem_append]
          exact Or.inl (assocFind_mem_keys um.units id u hu)
        have hc2 : ((allIds um).toFinset \ insert id v).card < n := by
          have heq : (allIds um).toFinset \ insert id v =
              ((allIds um).toFinset \ v).erase id := by
            ext t
            simp only [Finset.mem_sdiff, Finset.mem_insert, Finset.mem_erase]
            tauto
          rw [heq]
          have hidUv : id ∈ (allIds um).toFinset \ v := Finset.mem_sdiff.mpr ⟨hidU, hid⟩
          have hce := Finset.card_erase_of_mem hidUv
          have hpos : 0 < ((allIds um).toFinset \ v).card :=
            Finset.card_pos.mpr ⟨id, hidUv⟩
          omega
        rw [hfold (depList um id) (insert id v) hc2 z]
        constructor
        · rintro (hz | ⟨d, hd, hp⟩)
          · rcases Finset.mem_insert.mp hz with h | h
            · exact Or.inr (by rw [h]; exact .refl id hid)
            · exact Or.inl h
          · exact Or.inr (.step id d z hid hd (avoidPath_mono (Finset.subset_insert id v) hp))
        · rintro (hz | hp)
          · exact Or.inl (Finset.mem_insert_of_mem hz)
          · rcases avoidPath_split hp id with h1 | h2 | h3
            · exact absurd (Finset.mem_insert_self id v) (avoidPath_not_mem h1)
            · exact Or.inl (h2 ▸ Finset.mem_insert_self id v)
            · exact Or.inr h3

theorem avoidPath_empty_iff (um : UnitManager) (x z : String) :
    AvoidPath um ∅ x z ↔ Relation.ReflTransGen (depEdge um) x z := by
  constructor
  · intro h
    induction h with
    | refl a _ => exact Relation.ReflTransGen.refl
    | step a b c _ hb _ ih => exact Relation.ReflTransGen.head hb ih
  · intro h
    induction h with
    | refl => exact .refl x (Finset.not_mem_empty x)
    | tail _ hedge ih =>
      exact avoidPath_trans ih
        (.step _ _ _ (Finset.not_mem_empty _) hedge (.refl _ (Finset.not_mem_empty _)))

/-- Claim C1 (confirmed): for every dependency graph held by the unit manager,
including cyclic ones, get_affected_units(x) is exactly the set of ids
reachable from x along dependents edges with x itself removed; the traversal
carries a visited set, shown here to need only finitely much fuel, so it
terminates on cycles, and every node of a cycle other than the seed is
reachable from the seed and hence in the result. -/
theorem c1_get_affected_units_closure (um : UnitManager) (x z : String) :
    z ∈ get_affected_units um x ↔
      Relation.ReflTransGen (depEdge um) x z ∧ z ≠ x := by
  unfold get_affected_units
  rw [Finset.mem_erase]
  rw [collect_affected_char um ((allIds um).length + 1) x ∅
    (by
      have hcl := (allIds um).toFinset_card_le
      simp only [Finset.sdiff_empty]
      omega)]
  simp only [Finset.not_mem_empty, false_or]
  rw [avoidPath_empty_iff]
  tauto

/-! ## Claim C3: the combined output -/

theorem combineLoop_pos (frs : List String) : ∀ (acc : String) (i : Nat), 1 ≤ i →
    combineLoop frs i acc = acc ++ tailJoin frs := by
  induction frs with
  | nil => intro acc i _; simp [combineLoop, tailJoin]
  | cons f rest ih =>
    intro acc i hi
    rw [combineLoop, tailJoin]
    have hpos : i > 0 := hi
    by_cases hf : f = ""
    · rw [if_pos hf, if_pos hf, ih _ (i + 1) (by omega)]
      simp
    · rw [if_neg hf, if_pos hpos, if_neg hf, ih _ (i + 1) (by omega)]
      simp [String.append_assoc]

theorem interNewline_cons (f : String) (fr : List String) (h : fr ≠ []) :
    interNewline (f :: fr) = f ++ "\n" ++ interNewline fr := by
  cases fr with
  | nil => exact absurd rfl h
  | cons g t => rfl

theorem tailJoin_eq_inter (frs : List String) :
    tailJoin frs =
      (if (frs.filter (fun f => f != "")).isEmpty then ""
       else "\n" ++ interNewline (frs.filter (fun f => f != ""))) := by
  induction frs with
  | nil => simp [tailJoin]
  | cons f rest ih =>
    rw [tailJoin]
    by_cases hf : f = ""
    · rw [if_pos hf, List.filter_cons_of_neg (by simp [hf])]
      simpa using ih
    · rw [if_neg hf, List.filter_cons_of_pos (by simp [hf])]
      rcases he : rest.filter (fun f => f != "") with _ | ⟨g, t⟩
      · rw [he] at ih
        simp only [List.isEmpty_nil, if_pos rfl] at ih
        rw [ih]
        simp [interNewline]
      · rw [he] at ih
        simp only [List.isEmpty_cons, if_neg Bool.false_ne_true] at ih
        rw [ih, interNewline_cons f (g :: t) (by simp)]
        simp [String.append_assoc, interNewline]

/-- Claim C3 (amended): get_combined_output concatenates, in start_line order,
the non-empty fragments separated by exactly one newline, except that a
leading newline is produced whenever the first unit of the file contributes no
fragment but a later one does (the source writes the separator before every
non-empty fragment whose unit index is positive). -/
theorem c3_combined_output (eng : IncrementalEngine) (file_path : String) :
    get_combined_output eng file_path =
      combined_spec ((get_units_by_file eng.units file_path).map (fragment eng.cache)) := by
  unfold get_combined_output
  generalize (get_units_by_file eng.units file_path).map (fragment eng.cache) = frs
  have hemp : ∀ g : String, ("" : String) ++ g = g := by
    intro g; cases g; rfl
  cases frs with
  | nil => rfl
  | cons f rest =>
    rw [combineLoop]
    have hcs : combined_spec (f :: rest) =
        (if f = "" then
          (if ((f :: rest).filter (fun f => f != "")).isEmpty then ""
           else "\n" ++ interNewline ((f :: rest).filter (fun f => f != "")))
         else interNewline ((f :: rest).filter (fun f => f != ""))) := rfl
    rw [hcs]
    by_cases hf : f = ""
    · rw [if_pos hf, if_pos hf, combineLoop_pos rest "" (0 + 1) (by omega),
        hemp, tailJoin_eq_inter, List.filter_cons_of_neg (by simp [hf])]
    · rw [if_neg hf, if_neg hf]
      simp only [gt_iff_lt, lt_irrefl, if_false]
      rw [combineLoop_pos rest ("" ++ f) (0 + 1) (by omega), hemp,
        tailJoin_eq_inter, List.filter_cons_of_pos (by simp [hf])]
      rcases he : rest.filter (fun f => f != "") with _ | ⟨g, t⟩
      · simp [interNewline]
      · rw [interNewline_cons f (g :: t) (by simp)]
        simp [String.append_assoc]

/-- Counterexample to claim C3 as stated: with a first unit contributing no
fragment and a second contributing "X", the combined output is the string
newline-X, which starts with a separator, while the claimed concatenation of
the non-empty fragments is plain "X". -/
theorem c3_counterexample :
    get_combined_output engC3 "f" = "\nX" ∧ interNewline ["X"] = "X" ∧
      ("\nX" : String) ≠ "X" := by decide

/-! ## Claim C4: structural boundary expansion -/

instance (id : String) (u : CompilationUnit) (p : String × CompilationUnit) :
    Decidable (expandCond id u p) := by
  unfold expandCond
  exact inferInstance

theorem mem_listInsert (l : List String) (y x : String) :
    x ∈ listInsert l y ↔ x ∈ l ∨ x = y := by
  unfold listInsert
  by_cases h : y ∈ l
  · rw [if_pos h]
    constructor
    · exact Or.inl
    · rintro (hx | hx)
      · exact hx
      · exact hx ▸ h
  · rw [if_neg h]
    simp

theorem mem_dedupList (l : List String) (x : String) : x ∈ dedupList l ↔ x ∈ l := by
  have haux : ∀ (l : List String) (acc : List String),
      x ∈ l.foldl listInsert acc ↔ x ∈ acc ∨ x ∈ l := by
    intro l
    induction l with
    | nil => intro acc; simp
    | cons y l ih =>
      intro acc
      rw [List.foldl_cons, ih, mem_listInsert]
      simp only [List.mem_cons]
      tauto
  unfold dedupList
  rw [haux]
  simp

theorem get_unit_markUnit (um : UnitManager) (key : String) (st : UnitState) (q : String) :
    get_unit (markUnit um key st) q =
      (get_unit um q).map
        (fun u => if q = key then { u with state := st, cache_valid := false } else u) := by
  unfold markUnit get_unit
  simp only [assocFind_update]
  by_cases h : q = key
  · rw [if_pos h]
    have hfn : (fun (u : CompilationUnit) =>
        if q = key then { u with state := st, cache_valid := false } else u) =
        fun u => { u with state := st, cache_valid := false } :=
      funext fun u => if_pos h
    rw [hfn, h]
  · rw [if_neg h]
    have hfn : (fun (u : CompilationUnit) =>
        if q = key then { u with state := st, cache_valid := false } else u) =
        fun u => u :=
      funext fun u => if_neg h
    rw [hfn]
    cases assocFind um.units q <;> rfl

theorem isSome_markUnit (um : UnitManager) (key : String) (st : UnitState) (q : String) :
    (get_unit (markUnit um key st) q).isSome = (get_unit um q).isSome := by
  rw [get_unit_markUnit]
  cases get_unit um q <;> rfl

theorem coreEq_refl (um : UnitManager) : coreEq um um := ⟨rfl, fun _ => rfl⟩

theorem coreEq_markUnit {um0 um : UnitManager} (h : coreEq um0 um) (key : String)
    (st : UnitState) : coreEq um0 (markUnit um key st) := by
  refine ⟨h.1, fun q => ?_⟩
  rw [get_unit_markUnit, Option.map_map]
  have hfn : (unitCore ∘ fun u =>
      if q = key then { u with state := st, cache_valid := false } else u) = unitCore := by
    funext u
    by_cases hq : q = key
    · show unitCore (if q = key then _ else _) = _
      rw [if_pos hq]
      rfl
    · show unitCore (if q = key then _ else _) = _
      rw [if_neg hq]
  rw [hfn]
  exact h.2 q

theorem coreEq_isSome {um0 um : UnitManager} (h : coreEq um0 um) (q : String) :
    (get_unit um q).isSome = (get_unit um0 q).isSome := by
  have h2 := h.2 q
  cases hq : get_unit um q <;> cases hq0 : get_unit um0 q <;> rw [hq, hq0] at h2 <;>
    first
    | rfl
    | simp at h2

theorem marked_markUnit_self {um : UnitManager} {k : String}
    (h : (get_unit um k).isSome = true) :
    (get_unit (markUnit um k UnitState.AFFECTED) k).map
      (fun w => (w.state, w.cache_valid)) = some (UnitState.AFFECTED, false) := by
  rw [get_unit_markUnit]
  cases hq : get_unit um k
  · simp [hq] at h
  · simp

theorem marked_markUnit_mono {um : UnitManager} {k : String} (key : String)
    (h : (get_unit um k).map (fun w => (w.state, w.cache_valid)) =
      some (UnitState.AFFECTED, false)) :
    (get_unit (markUnit um key UnitState.AFFECTED) k).map
      (fun w => (w.state, w.cache_valid)) = some (UnitState.AFFECTED, false) := by
  rw [get_unit_markUnit]
  cases hq : get_unit um k with
  | none => simp [hq] at h
  | some w =>
    rw [hq] at h
    simp only [Option.map_some', Option.some_inj] at h ⊢
    by_cases hk : k = key
    · rw [if_pos hk]
    · rw [if_neg hk]
      exact h

theorem file_unit_pairs_mem (um : UnitManager) (f : String) (p : String × CompilationUnit)
    (hp : p ∈ file_unit_pairs um f) : get_unit um p.1 = some p.2 := by
  unfold file_unit_pairs at hp
  rw [List.mem_insertionSort] at hp
  rcases List.mem_filterMap.mp hp with ⟨id, _, heq⟩
  cases hg : get_unit um id with
  | none => simp [hg] at heq
  | some w =>
    rw [hg] at heq
    simp only [Option.map_some', Option.some_inj] at heq
    rw [← heq]
    exact hg

theorem file_unit_pairs_coreEq {um0 um : UnitManager} (f : String) (h : coreEq um0 um) :
    (file_unit_pairs um f).map pairCore = (file_unit_pairs um0 f).map pairCore := by
  unfold file_unit_pairs
  rw [h.1]
  have hfound : ∀ ids : List String,
      (ids.filterMap (fun id => (get_unit um id).map (fun u => (id, u)))).map pairCore =
        (ids.filterMap (fun id => (get_unit um0 id).map (fun u => (id, u)))).map pairCore := by
    intro ids
    induction ids with
    | nil => rfl
    | cons id ids ih =>
      have h2 := h.2 id
      simp only [List.filterMap_cons]
      cases hq : get_unit um id with
      | none =>
        cases hq0 : get_unit um0 id with
        | none =>
          simp only [hq, hq0, Option.map_none']
          exact ih
        | some u0 =>
          rw [hq, hq0] at h2
          simp at h2
      | some u =>
        cases hq0 : get_unit um0 id with
        | none =>
          rw [hq, hq0] at h2
          simp at h2
        | some u0 =>
          rw [hq, hq0] at h2
          simp only [Option.map_some', Option.some_inj] at h2
          simp only [hq, hq0, Option.map_some', List.map_cons, List.cons.injEq]
          refine ⟨?_, ih⟩
          show (id, unitCore u) = (id, unitCore u0)
          rw [h2]
  have hrel : ∀ (l : List (String × CompilationUnit)),
      ((l.insertionSort (fun a b => a.2.start_line ≤ b.2.start_line)).map pairCore) =
        ((l.map pairCore).insertionSort (fun a b => a.2.start_line ≤ b.2.start_line)) := by
    intro l
    exact List.map_insertionSort (fun a b => a.2.start_line ≤ b.2.start_line)
      (fun a b => a.2.start_line ≤ b.2.start_line) pairCore l (fun a _ b _ => Iff.rfl)
  rw [hrel, hrel, hfound]

theorem expandCond_pairCore (id : String) (u : CompilationUnit)
    (p : String × CompilationUnit) : expandCond id u (pairCore p) ↔ expandCond id u p :=
  Iff.rfl

theorem expandCond_core_u (id : String) {u u0 : CompilationUnit}
    (h : unitCore u = unitCore u0) (p : String × CompilationUnit) :
    expandCond id u p ↔ expandCond id u0 p := by
  unfold expandCond
  have h1 : u.start_line = u0.start_line := by
    have hc := congrArg CompilationUnit.start_line h
    exact hc
  have h2 : u.end_line = u0.end_line := by
    have hc := congrArg CompilationUnit.end_line h
    exact hc
  rw [h1, h2]

/-- Transfer an existential over file unit pairs between core-equal managers,
for any condition that only reads the key and the core of the unit. -/
theorem exists_pair_transfer {um0 um : UnitManager} (f : String) (h : coreEq um0 um)
    (C : (String × CompilationUnit) → Prop) (hC : ∀ p, C (pairCore p) ↔ C p) :
    (∃ p ∈ file_unit_pairs um f, C p) ↔ ∃ p ∈ file_unit_pairs um0 f, C p := by
  have hmap := file_unit_pairs_coreEq f h
  constructor
  · rintro ⟨p, hp, hcp⟩
    have : pairCore p ∈ (file_unit_pairs um0 f).map pairCore := by
      rw [← hmap]
      exact List.mem_map_of_mem pairCore hp
    rcases List.mem_map.mp this with ⟨q, hq, hqe⟩
    exact ⟨q, hq, (hC q).mp (by rw [hqe]; exact (hC p).mpr hcp)⟩
  · rintro ⟨p, hp, hcp⟩
    have : pairCore p ∈ (file_unit_pairs um f).map pairCore := by
      rw [hmap]
      exact List.mem_map_of_mem pairCore hp
    rcases List.mem_map.mp this with ⟨q, hq, hqe⟩
    exact ⟨q, hq, (hC q).mp (by rw [hqe]; exact (hC p).mpr hcp)⟩

theorem expandInner_step_eq (id : String) (u : CompilationUnit)
    (st2 : UnitManager × List String) (p : String × CompilationUnit) :
    (if p.2.id == id then st2
     else if decide (p.2.start_line ≤ u.start_line ∧ u.end_line ≤ p.2.end_line) then
       if is_structural p.2.type then
         (markUnit st2.1 p.1 UnitState.AFFECTED, listInsert st2.2 p.2.id)
       else st2
     else st2) =
      if expandCond id u p then
        (markUnit st2.1 p.1 UnitState.AFFECTED, listInsert st2.2 p.2.id)
      else st2 := by
  by_cases h1 : p.2.id = id
  · rw [ite_beq_eq _ _ _ _ h1, if_neg (fun hc => hc.1 h1)]
  · rw [ite_beq_ne _ _ _ _ h1]
    by_cases h2 : p.2.start_line ≤ u.start_line ∧ u.end_line ≤ p.2.end_line
    · rw [if_pos (by simpa using h2)]
      by_cases h3 : is_structural p.2.type = true
      · rw [if_pos h3, if_pos ⟨h1, h2.1, h2.2, h3⟩]
      · rw [if_neg h3, if_neg (fun hc => h3 hc.2.2.2)]
    · rw [if_neg (by simpa using h2), if_neg (fun hc => h2 ⟨hc.2.1, hc.2.2.1⟩)]

theorem expandInner_fold (um0 : UnitManager) (id : String) (u : CompilationUnit) :
    ∀ (ps : List (String × CompilationUnit)) (st : UnitManager × List String),
      coreEq um0 st.1 →
      coreEq um0 ((ps.foldl (fun st2 p =>
          if expandCond id u p then
            (markUnit st2.1 p.1 UnitState.AFFECTED, listInsert st2.2 p.2.id)
          else st2) st)).1 ∧
      (∀ x, x ∈ ((ps.foldl (fun st2 p =>
          if expandCond id u p then
            (markUnit st2.1 p.1 UnitState.AFFECTED, listInsert st2.2 p.2.id)
          else st2) st)).2 ↔ x ∈ st.2 ∨ ∃ p ∈ ps, expandCond id u p ∧ p.2.id = x) ∧
      (∀ k, ((get_unit st.1 k).map (fun w => (w.state, w.cache_valid)) =
            some (UnitState.AFFECTED, false)
          ∨ ∃ p ∈ ps, expandCond id u p ∧ p.1 = k ∧ (get_unit st.1 k).isSome = true) →
        (get_unit ((ps.foldl (fun st2 p =>
            if expandCond id u p then
              (markUnit st2.1 p.1 UnitState.AFFECTED, listInsert st2.2 p.2.id)
            else st2) st)).1 k).map (fun w => (w.state, w.cache_valid)) =
          some (UnitState.AFFECTED, false)) := by
  intro ps
  induction ps with
  | nil =>
    intro st h
    refine ⟨h, by simp, fun k hk => ?_⟩
    rcases hk with h1 | ⟨p, hp, _⟩
    · exact h1
    · exact absurd hp (List.not_mem_nil p)
  | cons p ps ih =>
    intro st h
    rw [List.foldl_cons]
    by_cases hc : expandCond id u p
    · rw [if_pos hc]
      have h1 : coreEq um0 (markUnit st.1 p.1 UnitState.AFFECTED, listInsert st.2 p.2.id).1 :=
        coreEq_markUnit h p.1 UnitState.AFFECTED
      rcases ih _ h1 with ⟨ha, hb, hcc⟩
      refine ⟨ha, fun x => ?_, fun k hk => ?_⟩
      · rw [hb x]
        simp only [mem_listInsert, List.mem_cons]
        constructor
        · rintro ((hx | hx) | ⟨q, hq, hcq, hqx⟩)
          · exact Or.inl hx
          · exact Or.inr ⟨p, Or.inl rfl, hc, hx.symm⟩
          · exact Or.inr ⟨q, Or.inr hq, hcq, hqx⟩
        · rintro (hx | ⟨q, hq | hq, hcq, hqx⟩)
          · exact Or.inl (Or.inl hx)
          · exact Or.inl (Or.inr (by rw [hq] at hqx; exact hqx.symm))
          · exact Or.inr ⟨q, hq, hcq, hqx⟩
      · apply hcc
        rcases hk with h2 | ⟨q, hq, hcq, hqk, hsome⟩
        · exact Or.inl (marked_markUnit_mono p.1 h2)
        · rcases List.mem_cons.mp hq with hq1 | hq1
          · subst hq1
            subst hqk
            exact Or.inl (marked_markUnit_self hsome)
          · exact Or.inr ⟨q, hq1, hcq, hqk, by rw [isSome_markUnit]; exact hsome⟩
    · rw [if_neg hc]
      rcases ih st h with ⟨ha, hb, hcc⟩
      refine ⟨ha, fun x => ?_, fun k hk => ?_⟩
      · rw [hb x]
        constructor
        · rintro (hx | ⟨q, hq, hcq, hqx⟩)
          · exact Or.inl hx
          · exact Or.inr ⟨q, List.mem_cons_of_mem p hq, hcq, hqx⟩
        · rintro (hx | ⟨q, hq, hcq, hqx⟩)
          · exact Or.inl hx
          · rcases List.mem_cons.mp hq with hq1 | hq1
            · exact absurd hcq (by rw [hq1]; exact hc)
            · exact Or.inr ⟨q, hq1, hcq, hqx⟩
      · apply hcc
        rcases hk with h2 | ⟨q, hq, hcq, hqk, hsome⟩
        · exact Or.inl h2
        · rcases List.mem_cons.mp hq with hq1 | hq1
          · exact absurd hcq (by rw [hq1]; exact hc)
          · exact Or.inr ⟨q, hq1, hcq, hqk, hsome⟩

theorem expand_fold_spec (um0 : UnitManager) (file_path : String) :
    ∀ (ids : List String) (st : UnitManager × List String), coreEq um0 st.1 →
      coreEq um0 (ids.foldl (expandStep file_path) st).1 ∧
      (∀ x, x ∈ (ids.foldl (expandStep file_path) st).2 ↔
        x ∈ st.2 ∨ ∃ id ∈ ids, expandQual um0 file_path id x) ∧
      (∀ k, ((get_unit st.1 k).map (fun w => (w.state, w.cache_valid)) =
            some (UnitState.AFFECTED, false)
          ∨ ∃ id ∈ ids, expandQualKey um0 file_path id k) →
        (get_unit (ids.foldl (expandStep file_path) st).1 k).map
          (fun w => (w.state, w.cache_valid)) = some (UnitState.AFFECTED, false)) := by
  intro ids
  induction ids with
  | nil =>
    intro st h
    refine ⟨h, by simp, fun k hk => ?_⟩
    rcases hk with h1 | ⟨id, hid, _⟩
    · exact h1
    · exact absurd hid (List.not_mem_nil id)
  | cons id ids ih =>
    intro st h
    rw [List.foldl_cons]
    have hqual_none : get_unit um0 id = none → ∀ x, ¬ expandQual um0 file_path id x := by
      intro hg x ⟨u, hu, _⟩
      rw [hg] at hu
      exact Option.noConfusion hu
    have hqualk_none : get_unit um0 id = none → ∀ k, ¬ expandQualKey um0 file_path id k := by
      intro hg k ⟨u, hu, _⟩
      rw [hg] at hu
      exact Option.noConfusion hu
    cases hg : get_unit st.1 id with
    | none =>
      have hstep : expandStep file_path st id = st := by
        unfold expandStep
        rw [hg]
      rw [hstep]
      have hg0 : get_unit um0 id = none := by
        have h2 := h.2 id
        rw [hg] at h2
        cases hq0 : get_unit um0 id
        · rfl
        · rw [hq0] at h2; exact absurd h2 (by simp)
      rcases ih st h with ⟨ha, hb, hcc⟩
      refine ⟨ha, fun x => ?_, fun k hk => ?_⟩
      · rw [hb x]
        constructor
        · rintro (hx | ⟨q, hq, hqx⟩)
          · exact Or.inl hx
          · exact Or.inr ⟨q, List.mem_cons_of_mem id hq, hqx⟩
        · rintro (hx | ⟨q, hq, hqx⟩)
          · exact Or.inl hx
          · rcases List.mem_cons.mp hq with hq1 | hq1
            · exact absurd hqx (by rw [hq1]; exact hqual_none hg0 x)
            · exact Or.inr ⟨q, hq1, hqx⟩
      · apply hcc
        rcases hk with h2 | ⟨q, hq, hqk⟩
        · exact Or.inl h2
        · rcases List.mem_cons.mp hq with hq1 | hq1
          · exact absurd hqk (by rw [hq1]; exact hqualk_none hg0 k)
          · exact Or.inr ⟨q, hq1, hqk⟩
    | some u =>
      have hstep : expandStep file_path st id =
          if is_structural u.type then st else expandInner file_path id u st := by
        unfold expandStep
        rw [hg]
      rw [hstep]
      have h2 := h.2 id
      rw [hg] at h2
      cases hg0 : get_unit um0 id with
      | none => rw [hg0] at h2; exact absurd h2 (by simp)
      | some u0 =>
        rw [hg0] at h2
        simp only [Option.map_some', Option.some_inj] at h2
        have htype : u.type = u0.type := by
          have hc := congrArg CompilationUnit.type h2
          exact hc
        by_cases hstruct : is_structural u.type = true
        · rw [if_pos hstruct]
          have hqual_struct : ∀ x, ¬ expandQual um0 file_path id x := by
            intro x ⟨w, hw, hws, _⟩
            rw [hg0] at hw
            cases hw
            rw [← htype] at hws
            rw [hstruct] at hws
            exact Bool.noConfusion hws
          have hqualk_struct : ∀ k, ¬ expandQualKey um0 file_path id k := by
            intro k ⟨w, hw, hws, _⟩
            rw [hg0] at hw
            cases hw
            rw [← htype] at hws
            rw [hstruct] at hws
            exact Bool.noConfusion hws
          rcases ih st h with ⟨ha, hb, hcc⟩
          refine ⟨ha, fun x => ?_, fun k hk => ?_⟩
          · rw [hb x]
            constructor
            · rintro (hx | ⟨q, hq, hqx⟩)
              · exact Or.inl hx
              · exact Or.inr ⟨q, List.mem_cons_of_mem id hq, hqx⟩
            · rintro (hx | ⟨q, hq, hqx⟩)
              · exact Or.inl hx
              · rcases List.mem_cons.mp hq with hq1 | hq1
                · exact absurd hqx (by rw [hq1]; exact hqual_struct x)
                · exact Or.inr ⟨q, hq1, hqx⟩
          · apply hcc
            rcases hk with hmk | ⟨q, hq, hqk⟩
            · exact Or.inl hmk
            · rcases List.mem_cons.mp hq with hq1 | hq1
              · exact absurd hqk (by rw [hq1]; exact hqualk_struct k)
              · exact Or.inr ⟨q, hq1, hqk⟩
        · rw [if_neg hstruct]
          have hinner0 := expandInner_fold um0 id u (file_unit_pairs st.1 file_path) st h
          have hinner : coreEq um0 (expandInner file_path id u st).1 ∧
              (∀ x, x ∈ (expandInner file_path id u st).2 ↔
                x ∈ st.2 ∨ ∃ p ∈ file_unit_pairs st.1 file_path,
                  expandCond id u p ∧ p.2.id = x) ∧
              (∀ k, ((get_unit st.1 k).map (fun w => (w.state, w.cache_valid)) =
                    some (UnitState.AFFECTED, false)
                  ∨ ∃ p ∈ file_unit_pairs st.1 file_path,
                      expandCond id u p ∧ p.1 = k ∧ (get_unit st.1 k).isSome = true) →
                (get_unit (expandInner file_path id u st).1 k).map
                  (fun w => (w.state, w.cache_valid)) =
                  some (UnitState.AFFECTED, false)) := by
            unfold expandInner
            have heq : (file_unit_pairs st.1 file_path).foldl
                (fun st2 p =>
                  if p.2.id == id then st2
                  else if decide (p.2.start_line ≤ u.start_line ∧
                      u.end_line ≤ p.2.end_line) then
                    if is_structural p.2.type then
                      (markUnit st2.1 p.1 UnitState.AFFECTED, listInsert st2.2 p.2.id)
                    else st2
                  else st2) st =
                (file_unit_pairs st.1 file_path).foldl
                  (fun st2 p =>
                    if expandCond id u p then
                      (markUnit st2.1 p.1 UnitState.AFFECTED, listInsert st2.2 p.2.id)
                    else st2) st := by
              have hfe : (fun (st2 : UnitManager × List String)
                  (p : String × CompilationUnit) =>
                  if p.2.id == id then st2
                  else if decide (p.2.start_line ≤ u.start_line ∧
                      u.end_line ≤ p.2.end_line) then
                    if is_structural p.2.type then
                      (markUnit st2.1 p.1 UnitState.AFFECTED, listInsert st2.2 p.2.id)
                    else st2
                  else st2) =
                  fun st2 p =>
                    if expandCond id u p then
                      (markUnit st2.1 p.1 UnitState.AFFECTED, listInsert st2.2 p.2.id)
                    else st2 :=
                funext fun st2 => funext fun p => expandInner_step_eq id u st2 p
              rw [hfe]
            rw [heq]
            exact hinner0
          have hstruct0 : is_structural u0.type = false := by
            rw [← htype]
            exact Bool.of_not_eq_true hstruct
          have htransfer : ∀ x, (∃ p ∈ file_unit_pairs st.1 file_path,
              expandCond id u p ∧ p.2.id = x) ↔ expandQual um0 file_path id x := by
            intro x
            rw [exists_pair_transfer file_path h (fun p => expandCond id u p ∧ p.2.id = x)
              (fun p => Iff.rfl)]
            constructor
            · rintro ⟨p, hp, hcp, hpx⟩
              exact ⟨u0, hg0, hstruct0, p, hp, (expandCond_core_u id h2 p).mp hcp, hpx⟩
            · rintro ⟨w, hw, _, p, hp, hcp, hpx⟩
              rw [hg0] at hw
              cases hw
              exact ⟨p, hp, (expandCond_core_u id h2 p).mpr hcp, hpx⟩
          have htransferk : ∀ k, (∃ p ∈ file_unit_pairs st.1 file_path,
              expandCond id u p ∧ p.1 = k ∧ (get_unit st.1 k).isSome = true) ↔
              expandQualKey um0 file_path id k := by
            intro k
            constructor
            · rintro ⟨p, hp, hcp, hpk, _⟩
              have : ∃ p ∈ file_unit_pairs um0 file_path,
                  expandCond id u p ∧ p.1 = k :=
                (exists_pair_transfer file_path h
                  (fun p => expandCond id u p ∧ p.1 = k) (fun p => Iff.rfl)).mp
                  ⟨p, hp, hcp, hpk⟩
              rcases this with ⟨q, hq, hcq, hqk⟩
              exact ⟨u0, hg0, hstruct0, q, hq, (expandCond_core_u id h2 q).mp hcq, hqk⟩
            · rintro ⟨w, hw, _, p, hp, hcp, hpk⟩
              rw [hg0] at hw
              cases hw
              have : ∃ q ∈ file_unit_pairs st.1 file_path,
                  expandCond id u q ∧ q.1 = k :=
                (exists_pair_transfer file_path h
                  (fun p => expandCond id u p ∧ p.1 = k) (fun p => Iff.rfl)).mpr
                  ⟨p, hp, (expandCond_core_u id h2 p).mpr hcp, hpk⟩
              rcases this with ⟨q, hq, hcq, hqk⟩
              refine ⟨q, hq, hcq, hqk, ?_⟩
              have := file_unit_pairs_mem st.1 file_path q hq
              rw [← hqk, this]
              rfl
          rcases ih (expandInner file_path id u st) hinner.1 with ⟨ha, hb, hcc⟩
          refine ⟨ha, fun x => ?_, fun k hk => ?_⟩
          · rw [hb x, hinner.2.1 x]
            have hx1 := htransfer x
            constructor
            · rintro ((hx | hx) | ⟨q, hq, hqx⟩)
              · exact Or.inl hx
              · exact Or.inr ⟨id, List.mem_cons_self id ids, hx1.mp hx⟩
              · exact Or.inr ⟨q, List.mem_cons_of_mem id hq, hqx⟩
            · rintro (hx | ⟨q, hq, hqx⟩)
              · exact Or.inl (Or.inl hx)
              · rcases List.mem_cons.mp hq with hq1 | hq1
                · exact Or.inl (Or.inr (hx1.mpr (hq1 ▸ hqx)))
                · exact Or.inr ⟨q, hq1, hqx⟩
          · apply hcc
            rcases hk with hmk | ⟨q, hq, hqk⟩
            · exact Or.inl (hinner.2.2 k (Or.inl hmk))
            · rcases List.mem_cons.mp hq with hq1 | hq1
              · exact Or.inl (hinner.2.2 k (Or.inr ((htransferk k).mpr (hq1 ▸ hqk))))
              · exact Or.inr ⟨q, hq1, hqk⟩

/-- Claim C4 (amended): during boundary expansion, for every id in the
affected set whose unit exists and is not structural (Function or Class), a
unit of the scanned file is added to the expanded set, and its map entry
marked AFFECTED with cache_valid false, if and only if it is a distinct unit
of structural type whose line range contains the affected unit range
NON-strictly on both ends (the source compares with less-or-equal, so a
structural unit covering exactly the same range also qualifies); ids whose
units are structural are not expanded further. -/
theorem c4_expand_to_boundaries (um : UnitManager) (file_path : String)
    (ids : List String) :
    (∀ x, x ∈ (expand_to_boundaries um file_path ids).2 ↔
      x ∈ ids ∨ ∃ id ∈ ids, expandQual um file_path id x) ∧
    (∀ id ∈ ids, ∀ k, expandQualKey um file_path id k →
      (get_unit (expand_to_boundaries um file_path ids).1 k).map
        (fun w => (w.state, w.cache_valid)) = some (UnitState.AFFECTED, false)) := by
  have h := expand_fold_spec um file_path ids (um, dedupList ids) (coreEq_refl um)
  constructor
  · intro x
    unfold expand_to_boundaries
    rw [h.2.1 x, mem_dedupList]
  · intro id hid k hk
    exact h.2.2 k (Or.inr ⟨id, hid, hk⟩)

/-- Witness for c4_expand_to_boundaries: in the concrete manager umC4 the
function unit g covering the same range as statement s is added and marked. -/
theorem c4_expand_to_boundaries_witness :
    ("g" ∈ (expand_to_boundaries umC4 "f" ["s"]).2) ∧
      (get_unit (expand_to_boundaries umC4 "f" ["s"]).1 "g").map
        (fun w => (w.state, w.cache_valid)) = some (UnitState.AFFECTED, false) := by
  have h := c4_expand_to_boundaries umC4 "f" ["s"]
  constructor
  · exact (h.1 "g").mpr (Or.inr ⟨"s", by decide,
      ⟨unitC4S, by decide, by decide, ("g", unitC4G), by decide, by decide, by decide⟩⟩)
  · exact h.2 "s" (by decide) "g"
      ⟨unitC4S, by decide, by decide, ("g", unitC4G), by decide, by decide, by decide⟩

/-- Counterexample to claim C4 as stated: the function unit g spans exactly
the same lines 1-5 as the statement unit s, so it does not strictly contain
the range of s, yet the source adds it to the expanded set. -/
theorem c4_counterexample :
    "g" ∈ (expand_to_boundaries umC4 "f" ["s"]).2 ∧
      ¬ strictly_contains unitC4G unitC4S := by
  constructor
  · decide
  · decide

/-! ## Claim C7: the build cache key -/

theorem hexNoPadAux_ne_nil (v : Nat) : hexNoPadAux v ≠ [] := by
  rw [hexNoPadAux]
  by_cases hv : v < 16
  · rw [dif_pos hv]
    simp
  · rw [dif_neg hv]
    simp

theorem hexDigit_ne_zero (n : Nat) (h1 : n < 16) (h2 : n ≠ 0) : hexDigit n ≠ '0' := by
  interval_cases n
  · exact absurd rfl h2
  all_goals decide

theorem hexNoPadAux_head_ne_zero :
    ∀ (v : Nat) (c : Char) (cs : List Char), hexNoPadAux v = c :: cs → cs ≠ [] →
      c ≠ '0' := by
  intro v
  induction v using Nat.strong_induction_on with
  | _ v ih =>
    intro c cs heq hcs
    rw [hexNoPadAux] at heq
    by_cases hv : v < 16
    · rw [dif_pos hv] at heq
      cases heq
      exact absurd rfl hcs
    · rw [dif_neg hv] at heq
      rcases h16 : hexNoPadAux (v / 16) with _ | ⟨c0, cs0⟩
      · exact absurd h16 (hexNoPadAux_ne_nil (v / 16))
      · rw [h16] at heq
        simp only [List.cons_append, List.cons.injEq] at heq
        rcases heq with ⟨hc, _⟩
        subst hc
        cases cs0 with
        | nil =>
          rw [hexNoPadAux] at h16
          by_cases hv16 : v / 16 < 16
          · rw [dif_pos hv16] at h16
            cases h16
            have hne : v / 16 ≠ 0 := by
              have : 16 ≤ v := Nat.le_of_not_lt hv
              have : 1 ≤ v / 16 := (Nat.le_div_iff_mul_le (by omega)).mpr (by omega)
              omega
            exact hexDigit_ne_zero (v / 16) hv16 hne
          · rw [dif_neg hv16] at h16
            rcases h256 : hexNoPadAux (v / 16 / 16) with _ | ⟨d, ds⟩
            · exact absurd h256 (hexNoPadAux_ne_nil _)
            · rw [h256] at h16
              simp at h16
        | cons c1 cs1 =>
          exact ih (v / 16) (Nat.div_lt_self (by omega) (by omega)) c0 (c1 :: cs1) h16
            (by simp)

theorem hexNoPad_ne_leading_zero (v : Nat) (s : String)
    (hh : s.data.head? = some '0') (hl : 2 ≤ s.data.length) : hexNoPad v ≠ s := by
  intro heq
  have hdata : hexNoPadAux v = s.data := congrArg String.data heq
  rcases hs : s.data with _ | ⟨c, cs⟩
  · rw [hs] at hh; exact Option.noConfusion hh
  · rw [hs] at hh hdata hl
    simp only [List.head?_cons, Option.some_inj] at hh
    subst hh
    have hcs : cs ≠ [] := by
      intro hnil
      rw [hnil] at hl
      simp at hl
    exact hexNoPadAux_head_ne_zero v _ cs hdata hcs rfl

/-- Counterexample to claim C7 as stated: with target "t" (byte 0x74),
command "c6" (bytes 0x63 0x36) and no dependencies, the key the claim
prescribes is the 16-hex-digit FNV-1a content hash of the assembled string,
which happens to begin with the digit 0; the unpadded hex rendering the
source produces can never be a 16-character string with a leading zero,
whatever 64-bit value std::hash returns, so the source key differs from the
claimed key for every possible standard library hash function. -/
theorem c7_counterexample :
    ¬ ∃ h : List Nat → Nat,
      build_cache_key h (fun _ => none) [116] [99, 54] [] =
        claimed_build_key (fun _ => none) [116] [99, 54] [] := by
  rintro ⟨h, hh⟩
  exact hexNoPad_ne_leading_zero _ _ (by decide) (by decide) hh

theorem foldl_dep_components (h : List Nat → Nat) (fs : List Nat → Option (List Nat)) :
    ∀ (ds : List (List Nat)) (acc : List Nat),
      ds.foldl (fun acc dep =>
          acc ++ asciiBytes "dep=" ++ dep ++ [58]
            ++ asciiBytes (calculate_file_hash h fs dep) ++ [59]) acc =
        acc ++ (ds.map (fun dep => asciiBytes "dep=" ++ dep ++ [58]
          ++ asciiBytes (calculate_file_hash h fs dep) ++ [59])).flatten := by
  intro ds
  induction ds with
  | nil => intro acc; simp
  | cons d ds ihd =>
    intro acc
    rw [List.foldl_cons, ihd]
    simp [List.append_assoc]

/-- Claim C7 (amended): cache_build_result and get_cached_build_result derive
the cache key by one and the same computation, namely the unpadded lowercase
hex rendering of the implementation-defined std::hash of the string
target=t;command=H(command);dep=p:H(content(p));... assembled in the order
the dependencies were supplied, where H is itself that std::hash rendering
and a missing dependency file contributes dep=p:; with an empty hash.  The
key is NOT the 16-hex-digit FNV-1a content hash of section 4.A. -/
theorem c7_build_cache_key (h : List Nat → Nat) (fs : List Nat → Option (List Nat))
    (target command : List Nat) (dependencies : List (List Nat)) :
    build_cache_key h fs target command dependencies =
      build_cache_key_spec h fs target command dependencies := by
  unfold build_cache_key build_cache_key_spec
  dsimp only
  rw [foldl_dep_components]

/-! ## Claim C8: LFU eviction minimality -/

theorem fmGet_insert (fm : List (Nat × List String)) (f : Nat) (l : List String)
    (f' : Nat) : fmGet (assocInsert fm f l) f' = if f' = f then l else fmGet fm f' := by
  unfold fmGet
  rw [assocFind_insert]
  by_cases h : f' = f <;> simp [h]

theorem assocFind_isSome_of_mem_keys {κ α : Type} [DecidableEq κ]
    (m : List (κ × α)) (k : κ) (h : k ∈ m.map (·.1)) : (assocFind m k).isSome := by
  induction m with
  | nil => simp at h
  | cons e m ih =>
    by_cases he : e.1 = k
    · rw [assocFind_cons_eq _ _ _ he]
      rfl
    · rw [assocFind_cons_ne _ _ _ he]
      rcases List.mem_cons.mp h with h1 | h1
      · exact absurd h1.symm he
      · exact ih h1

theorem assocInsert_keys_found {κ α : Type} [DecidableEq κ] (m : List (κ × α)) (k : κ)
    (v : α) (h : (assocFind m k).isSome) :
    (assocInsert m k v).map (·.1) = m.map (·.1) := by
  unfold assocInsert
  rw [if_pos (by simpa [assocFind, Option.isSome_map] using h), List.map_map]
  have hfn : ((fun (e : κ × α) => e.1) ∘ fun e => if e.1 == k then (k, v) else e) =
      fun (e : κ × α) => e.1 := by
    funext e
    by_cases he : e.1 = k
    · show (if e.1 == k then (k, v) else e).1 = e.1
      rw [ite_beq_eq _ _ _ _ he]
      exact he.symm
    · show (if e.1 == k then (k, v) else e).1 = e.1
      rw [ite_beq_ne _ _ _ _ he]
  rw [hfn]

theorem assocInsert_keys_new {κ α : Type} [DecidableEq κ] (m : List (κ × α)) (k : κ)
    (v : α) (h : assocFind m k = none) :
    (assocInsert m k v).map (·.1) = m.map (·.1) ++ [k] := by
  unfold assocInsert
  have hns : ¬ (m.find? (fun e => e.1 == k)).isSome := by
    intro hs
    rcases Option.isSome_iff_exists.mp hs with ⟨e, he⟩
    unfold assocFind at h
    rw [he] at h
    simp at h
  rw [if_neg hns]
  simp

theorem assocErase_keys_sublist {κ α : Type} [DecidableEq κ] (m : List (κ × α)) (k : κ) :
    ((assocErase m k).map (·.1)).Sublist (m.map (·.1)) :=
  List.Sublist.map _ (List.filter_sublist m)

theorem mem_of_getLast_some (l : List String) (a : String) (h : l.getLast? = some a) :
    a ∈ l := by
  induction l with
  | nil => simp at h
  | cons b t ih =>
    cases t with
    | nil => simp_all
    | cons c t2 =>
      rw [List.getLast?_cons_cons] at h
      exact List.mem_cons_of_mem b (ih h)

theorem dropLast_eq_erase_getLast (l : List String) (x : String) (hnd : l.Nodup)
    (hlast : l.getLast? = some x) : l.dropLast = l.erase x := by
  induction l with
  | nil => simp at hlast
  | cons a l ih =>
    cases l with
    | nil =>
      simp only [List.getLast?_singleton, Option.some_inj] at hlast
      subst hlast
      simp
    | cons b t =>
      have hlast2 : (b :: t).getLast? = some x := by
        rw [← hlast]
        exact List.getLast?_cons_cons.symm
      have hxmem : x ∈ b :: t := mem_of_getLast_some (b :: t) x hlast2
      have hax : a ≠ x := by
        intro hh
        subst hh
        exact (List.nodup_cons.mp hnd).1 hxmem
      rw [List.dropLast_cons₂, List.erase_cons_tail (by simpa using hax),
        ih (List.nodup_cons.mp hnd).2 hlast2]

/-- The shared structural effect of deleting one key from the cache map and
from its frequency list. -/
theorem lfu_erase_step (cache : List (String × LFUEntry)) (fm : List (Nat × List String))
    (k0 : String) (e0 : LFUEntry)
    (hnodupK : (cache.map (·.1)).Nodup)
    (hmem : ∀ f k, k ∈ fmGet fm f ↔ ∃ e, assocFind cache k = some e ∧ e.frequency = f)
    (hnodupF : ∀ f, (fmGet fm f).Nodup)
    (hfind : assocFind cache k0 = some e0) :
    (((assocErase cache k0).map (·.1)).Nodup) ∧
    (∀ f k, k ∈ fmGet (assocInsert fm e0.frequency
        ((fmGet fm e0.frequency).erase k0)) f ↔
      ∃ e, assocFind (assocErase cache k0) k = some e ∧ e.frequency = f) ∧
    (∀ f, (fmGet (assocInsert fm e0.frequency
        ((fmGet fm e0.frequency).erase k0)) f).Nodup) := by
  refine ⟨(assocErase_keys_sublist cache k0).nodup hnodupK, fun f k => ?_, fun f => ?_⟩
  · rw [fmGet_insert, assocFind_erase]
    by_cases hf : f = e0.frequency
    · rw [if_pos hf]
      by_cases hk : k = k0
      · subst hk
        rw [if_pos rfl]
        rw [(hnodupF e0.frequency).mem_erase_iff]
        constructor
        · intro hh
          exact absurd rfl hh.1
        · rintro ⟨e, he, _⟩
          exact Option.noConfusion he
      · rw [if_neg hk, (hnodupF e0.frequency).mem_erase_iff, hmem e0.frequency k]
        subst hf
        constructor
        · rintro ⟨_, h2⟩
          exact h2
        · intro h2
          exact ⟨hk, h2⟩
    · rw [if_neg hf]
      by_cases hk : k = k0
      · subst hk
        rw [if_pos rfl, hmem f k]
        constructor
        · rintro ⟨e, he, hef⟩
          rw [hfind] at he
          cases he
          exact absurd hef.symm hf
        · rintro ⟨e, he, _⟩
          exact Option.noConfusion he
      · rw [if_neg hk, hmem f k]
  · rw [fmGet_insert]
    by_cases hf : f = e0.frequency
    · rw [if_pos hf]
      exact (hnodupF e0.frequency).erase k0
    · rw [if_neg hf]
      exact hnodupF f

/-- Inserting a brand-new key at frequency 1 and resetting min_frequency to 1
preserves the invariant. -/
theorem lfu_insert_new_step (max_size : Nat) (cache : List (String × LFUEntry))
    (fm : List (Nat × List String)) (key value : String)
    (hnodupK : (cache.map (·.1)).Nodup)
    (hmem : ∀ f k, k ∈ fmGet fm f ↔ ∃ e, assocFind cache k = some e ∧ e.frequency = f)
    (hnodupF : ∀ f, (fmGet fm f).Nodup)
    (hpos : ∀ k e, assocFind cache k = some e → 1 ≤ e.frequency)
    (hnone : assocFind cache key = none) :
    LFUInv ⟨max_size, 1, assocInsert cache key ⟨value, 1⟩,
      assocInsert fm 1 (key :: fmGet fm 1)⟩ := by
  have hkeynotin : key ∉ cache.map (·.1) := by
    intro hk
    have := assocFind_isSome_of_mem_keys cache key hk
    rw [hnone] at this
    exact Bool.noConfusion this
  have hkeyfm : ∀ f, key ∉ fmGet fm f := by
    intro f hk
    rcases (hmem f key).mp hk with ⟨e, he, _⟩
    rw [hnone] at he
    exact Option.noConfusion he
  constructor
  · rw [assocInsert_keys_new cache key _ hnone]
    simp only [List.nodup_append, List.nodup_cons]
    exact ⟨hnodupK, by simp, by simpa using fun hk => hkeynotin hk⟩
  · intro f k
    show k ∈ fmGet (assocInsert fm 1 (key :: fmGet fm 1)) f ↔ _
    rw [fmGet_insert, assocFind_insert]
    by_cases hf : f = 1
    · rw [if_pos hf]
      by_cases hk : k = key
      · rw [if_pos hk]
        subst hk
        simp [hf]
      · rw [if_neg hk]
        simp only [List.mem_cons]
        rw [hmem 1 k]
        subst hf
        constructor
        · rintro (hh | hh)
          · exact absurd hh hk
          · exact hh
        · exact Or.inr
    · rw [if_neg hf]
      by_cases hk : k = key
      · rw [if_pos hk]
        subst hk
        constructor
        · intro hh
          exact absurd hh (hkeyfm f)
        · rintro ⟨e, he, hef⟩
          cases he
          exact absurd hef.symm hf
      · rw [if_neg hk]
        exact hmem f k
  · intro f
    rw [fmGet_insert]
    by_cases hf : f = 1
    · rw [if_pos hf]
      exact List.nodup_cons.mpr ⟨hkeyfm 1, hnodupF 1⟩
    · rw [if_neg hf]
      exact hnodupF f
  · intro k e he
    rw [assocFind_insert] at he
    by_cases hk : k = key
    · rw [if_pos hk] at he
      cases he
      exact le_refl 1
    · rw [if_neg hk] at he
      exact hpos k e he
  · intro k e he
    rw [assocFind_insert] at he
    by_cases hk : k = key
    · rw [if_pos hk] at he
      cases he
      exact le_refl 1
    · rw [if_neg hk] at he
      exact hpos k e he

/-- The frequency bump of put-on-existing-key and get preserves the
invariant. -/
theorem lfuInv_bump {c : LFUCache} (hinv : LFUInv c) (key : String) (e : LFUEntry)
    (he : assocFind c.cache key = some e) (value : String) :
    LFUInv (lfu_bump c key e value) := by
  have hestep := lfu_erase_step c.cache c.freq_map key e hinv.nodupKeys hinv.memIff
    hinv.nodupFm he
  unfold lfu_bump
  have hne : e.frequency + 1 ≠ e.frequency := by omega
  have hkeyNotInOld : key ∉ (fmGet c.freq_map e.frequency).erase key :=
    fun hk => absurd rfl ((hinv.nodupFm e.frequency).mem_erase_iff.mp hk).1
  have hkeyNotInNew : key ∉ fmGet c.freq_map (e.frequency + 1) := by
    intro hk
    rcases (hinv.memIff _ key).mp hk with ⟨e2, he2, hef⟩
    rw [he] at he2
    cases he2
    omega
  have hfm1get : ∀ f, fmGet (assocInsert c.freq_map e.frequency
      ((fmGet c.freq_map e.frequency).erase key)) f =
      if f = e.frequency then (fmGet c.freq_map e.frequency).erase key
      else fmGet c.freq_map f := fun f => fmGet_insert _ _ _ f
  constructor
  · rw [assocInsert_keys_found _ _ _ (by rw [he]; rfl)]
    exact hinv.nodupKeys
  · intro f k
    dsimp only
    rw [fmGet_insert, assocFind_insert]
    by_cases hf : f = e.frequency + 1
    · rw [if_pos hf]
      by_cases hk : k = key
      · rw [if_pos hk]
        subst hk
        constructor
        · intro _
          exact ⟨⟨value, e.frequency + 1⟩, rfl, hf.symm⟩
        · intro _
          exact List.mem_cons_self k _
      · rw [if_neg hk]
        simp only [List.mem_cons]
        rw [hfm1get, if_neg hne, hinv.memIff (e.frequency + 1) k]
        subst hf
        constructor
        · rintro (hh | hh)
          · exact absurd hh hk
          · exact hh
        · exact Or.inr
    · rw [if_neg hf]
      by_cases hk : k = key
      · rw [if_pos hk]
        subst hk
        rw [hfm1get]
        constructor
        · intro hh
          by_cases hf2 : f = e.frequency
          · rw [if_pos hf2] at hh
            exact absurd hh hkeyNotInOld
          · rw [if_neg hf2] at hh
            rcases (hinv.memIff f k).mp hh with ⟨e2, he2, hef⟩
            rw [he] at he2
            cases he2
            exact absurd hef.symm hf2
        · rintro ⟨e2, he2, hef⟩
          cases he2
          exact absurd hef.symm hf
      · rw [if_neg hk, hfm1get]
        by_cases hf2 : f = e.frequency
        · rw [if_pos hf2, (hinv.nodupFm e.frequency).mem_erase_iff]
          subst hf2
          rw [hinv.memIff e.frequency k]
          constructor
          · rintro ⟨_, hh⟩
            exact hh
          · intro hh
            exact ⟨hk, hh⟩
        · rw [if_neg hf2]
          exact hinv.memIff f k
  · intro f
    dsimp only
    rw [fmGet_insert]
    by_cases hf : f = e.frequency + 1
    · rw [if_pos hf]
      refine List.nodup_cons.mpr ⟨?_, ?_⟩
      · rw [hfm1get, if_neg hne]
        exact hkeyNotInNew
      · rw [hfm1get, if_neg hne]
        exact hinv.nodupFm _
    · rw [if_neg hf, hfm1get]
      by_cases hf2 : f = e.frequency
      · rw [if_pos hf2]
        exact (hinv.nodupFm _).erase key
      · rw [if_neg hf2]
        exact hinv.nodupFm f
  · intro k e2 he2
    dsimp only at he2 ⊢
    rw [assocFind_insert] at he2
    by_cases hbump : ((fmGet (assocInsert c.freq_map e.frequency
        ((fmGet c.freq_map e.frequency).erase key)) e.frequency).isEmpty &&
        (e.frequency == c.min_frequency)) = true
    · rw [if_pos hbump]
      rcases Bool.and_eq_true_iff.mp hbump with ⟨hemp, hfmin⟩
      have hfmin2 : e.frequency = c.min_frequency := by simpa using hfmin
      have hemp2 : (fmGet c.freq_map e.frequency).erase key = [] := by
        rw [hfm1get, if_pos rfl] at hemp
        exact List.isEmpty_iff.mp hemp
      by_cases hk : k = key
      · rw [if_pos hk] at he2
        cases he2
        dsimp only
        omega
      · rw [if_neg hk] at he2
        have hge := hinv.minLe k e2 he2
        rcases Nat.lt_or_ge c.min_frequency e2.frequency with hlt | hge2
        · omega
        · have heq : e2.frequency = c.min_frequency := by omega
          have : k ∈ fmGet c.freq_map e.frequency := by
            rw [hinv.memIff]
            exact ⟨e2, he2, by omega⟩
          have : k ∈ (fmGet c.freq_map e.frequency).erase key :=
            (List.Nodup.mem_erase_iff (hinv.nodupFm _)).mpr ⟨hk, this⟩
          rw [hemp2] at this
          exact absurd this (List.not_mem_nil k)
    · rw [if_neg hbump]
      by_cases hk : k = key
      · rw [if_pos hk] at he2
        cases he2
        have := hinv.minLe key e he
        dsimp only
        omega
      · rw [if_neg hk] at he2
        exact hinv.minLe k e2 he2
  · intro k e2 he2
    dsimp only at he2
    rw [assocFind_insert] at he2
    by_cases hk : k = key
    · rw [if_pos hk] at he2
      cases he2
      dsimp only
      omega
    · rw [if_neg hk] at he2
      exact hinv.freqPos k e2 he2

/-- LFUCache::remove preserves the invariant. -/
theorem lfuInv_remove {c : LFUCache} (hinv : LFUInv c) (key : String) :
    LFUInv (lfu_remove c key).2 := by
  unfold lfu_remove
  cases hfind : assocFind c.cache key with
  | none => exact hinv
  | some e =>
    obtain ⟨hk1, hm1, hf1⟩ := lfu_erase_step c.cache c.freq_map key e hinv.nodupKeys
      hinv.memIff hinv.nodupFm hfind
    dsimp only
    refine ⟨hk1, hm1, hf1, ?_, ?_⟩
    · intro k e2 he2
      rw [assocFind_erase] at he2
      by_cases hke : k = key
      · rw [if_pos hke] at he2
        exact Option.noConfusion he2
      · rw [if_neg hke] at he2
        by_cases hbump : ((fmGet (assocInsert c.freq_map e.frequency
            ((fmGet c.freq_map e.frequency).erase key)) e.frequency).isEmpty &&
            (e.frequency == c.min_frequency)) = true
        · rw [if_pos hbump]
          dsimp only
          rcases Bool.and_eq_true_iff.mp hbump with ⟨hemp, hfmin⟩
          have hfmin2 : e.frequency = c.min_frequency := by simpa using hfmin
          have hemp2 : (fmGet c.freq_map e.frequency).erase key = [] := by
            rw [fmGet_insert, if_pos rfl] at hemp
            exact List.isEmpty_iff.mp hemp
          have hge := hinv.minLe k e2 he2
          rcases Nat.lt_or_ge c.min_frequency e2.frequency with hlt | hge2
          · omega
          · have hmm : k ∈ fmGet c.freq_map e.frequency := by
              rw [hinv.memIff]
              exact ⟨e2, he2, by omega⟩
            have h2 : k ∈ (fmGet c.freq_map e.frequency).erase key :=
              (List.Nodup.mem_erase_iff (hinv.nodupFm _)).mpr ⟨hke, hmm⟩
            rw [hemp2] at h2
            exact absurd h2 (List.not_mem_nil k)
        · rw [if_neg hbump]
          exact hinv.minLe k e2 he2
    · intro k e2 he2
      rw [assocFind_erase] at he2
      by_cases hke : k = key
      · rw [if_pos hke] at he2
        exact Option.noConfusion he2
      · rw [if_neg hke] at he2
        exact hinv.freqPos k e2 he2

/-- LFUCache::put preserves the invariant whenever it does not hit the
empty-list undefined behaviour. -/
theorem lfuInv_put {c : LFUCache} (hinv : LFUInv c) (key value : String)
    (c' : LFUCache) (ev : Option String)
    (h : lfu_put c key value = some (c', ev)) : LFUInv c' := by
  unfold lfu_put at h
  split at h
  · rename_i e heq
    rw [Option.some_inj, Prod.mk.injEq] at h
    rw [← h.1]
    exact lfuInv_bump hinv key e heq value
  · rename_i heq
    split at h
    · split at h
      · exact Option.noConfusion h
      · rename_i lfu_key hlast
        dsimp only at h
        have hmemL : lfu_key ∈ fmGet c.freq_map c.min_frequency :=
          mem_of_getLast_some _ _ hlast
        obtain ⟨fe, hfe, hfef⟩ := (hinv.memIff c.min_frequency lfu_key).mp hmemL
        have hdrop : (fmGet c.freq_map c.min_frequency).dropLast =
            (fmGet c.freq_map c.min_frequency).erase lfu_key :=
          dropLast_eq_erase_getLast _ _ (hinv.nodupFm _) hlast
        obtain ⟨hk1, hm1, hf1⟩ := lfu_erase_step c.cache c.freq_map lfu_key fe
          hinv.nodupKeys hinv.memIff hinv.nodupFm hfe
        rw [hfef, ← hdrop] at hm1 hf1
        have hpos1 : ∀ k2 e2, assocFind (assocErase c.cache lfu_key) k2 = some e2 →
            1 ≤ e2.frequency := by
          intro k2 e2 he2
          rw [assocFind_erase] at he2
          by_cases hke : k2 = lfu_key
          · rw [if_pos hke] at he2
            exact Option.noConfusion he2
          · rw [if_neg hke] at he2
            exact hinv.freqPos k2 e2 he2
        have hnone1 : assocFind (assocErase c.cache lfu_key) key = none := by
          rw [assocFind_erase]
          by_cases hke : key = lfu_key
          · rw [if_pos hke]
          · rw [if_neg hke]
            exact heq
        rw [Option.some_inj, Prod.mk.injEq] at h
        rw [← h.1]
        exact lfu_insert_new_step c.max_size (assocErase c.cache lfu_key)
          (assocInsert c.freq_map c.min_frequency
            ((fmGet c.freq_map c.min_frequency).dropLast)) key value hk1 hm1 hf1
          hpos1 hnone1
    · dsimp only at h
      rw [Option.some_inj, Prod.mk.injEq] at h
      rw [← h.1]
      exact lfu_insert_new_step c.max_size c.cache c.freq_map key value
        hinv.nodupKeys hinv.memIff hinv.nodupFm hinv.freqPos heq

/-- LFUCache::get preserves the invariant. -/
theorem lfuInv_get {c : LFUCache} (hinv : LFUInv c) (key : String) :
    LFUInv (lfu_get c key).2 := by
  unfold lfu_get
  cases hfind : assocFind c.cache key with
  | none => exact hinv
  | some e => exact lfuInv_bump hinv key e hfind e.value

/-- A fresh LFU cache satisfies the invariant. -/
theorem lfuInv_init (cap : Nat) : LFUInv (LFUCache.init cap) := by
  refine ⟨?_, ?_, ?_, ?_, ?_⟩
  · simp [LFUCache.init]
  · intro f k
    simp [LFUCache.init, fmGet, assocFind]
  · intro f
    simp [LFUCache.init, fmGet, assocFind]
  · intro k e he
    simp [LFUCache.init, assocFind] at he
  · intro k e he
    simp [LFUCache.init, assocFind] at he

/-- Every successful public operation preserves the invariant. -/
theorem lfuInv_step {c : LFUCache} (hinv : LFUInv c) (op : LFUOp) (c' : LFUCache)
    (h : lfu_step c op = some c') : LFUInv c' := by
  cases op with
  | put k v =>
    simp only [lfu_step] at h
    cases hput : lfu_put c k v with
    | none =>
      rw [hput] at h
      exact Option.noConfusion h
    | some p =>
      rw [hput, Option.map_some', Option.some_inj] at h
      exact h ▸ lfuInv_put hinv k v p.1 p.2 (by rw [hput])
  | get k =>
    simp only [lfu_step] at h
    rw [Option.some_inj] at h
    exact h ▸ lfuInv_get hinv k
  | rem k =>
    simp only [lfu_step] at h
    rw [Option.some_inj] at h
    exact h ▸ lfuInv_remove hinv k

/-- The invariant is carried along any successful fold of operations. -/
theorem lfuInv_run_aux (ops : List LFUOp) (acc : Option LFUCache)
    (hacc : ∀ c0, acc = some c0 → LFUInv c0) (c : LFUCache)
    (h : ops.foldl (fun a op => a.bind (fun x => lfu_step x op)) acc = some c) :
    LFUInv c := by
  induction ops generalizing acc with
  | nil =>
    simp only [List.foldl_nil] at h
    exact hacc c h
  | cons op t ih =>
    simp only [List.foldl_cons] at h
    refine ih _ ?_ h
    intro c0 h0
    cases hA : acc with
    | none =>
      rw [hA] at h0
      exact Option.noConfusion h0
    | some a =>
      rw [hA, Option.some_bind] at h0
      exact lfuInv_step (hacc a hA) op c0 h0

/-- Any state reachable from a fresh cache satisfies the invariant. -/
theorem lfuInv_run (cap : Nat) (ops : List LFUOp) (c : LFUCache)
    (h : lfu_run cap ops = some c) : LFUInv c := by
  unfold lfu_run at h
  refine lfuInv_run_aux ops _ ?_ c h
  intro c0 h0
  rw [Option.some_inj] at h0
  exact h0 ▸ lfuInv_init cap

/-- C8: for every sequence of put, get and remove operations run from a fresh
LFUCache of any capacity, whenever a further put on the reached state evicts a
key, that key is stored in the cache at that moment and its stored frequency
is minimal among the frequencies of all keys then present. -/
theorem c8_lfu_eviction_minimal (cap : Nat) (ops : List LFUOp) (c : LFUCache)
    (key value : String) (c' : LFUCache) (ev : String)
    (hrun : lfu_run cap ops = some c)
    (hput : lfu_put c key value = some (c', some ev)) :
    ∃ fe, assocFind c.cache ev = some fe ∧
      ∀ k2 e2, assocFind c.cache k2 = some e2 → fe.frequency ≤ e2.frequency := by
  have hinv := lfuInv_run cap ops c hrun
  unfold lfu_put at hput
  split at hput
  · rename_i e heq
    rw [Option.some_inj, Prod.mk.injEq] at hput
    exact Option.noConfusion hput.2
  · rename_i heq
    split at hput
    · split at hput
      · exact Option.noConfusion hput
      · rename_i lfu_key hlast
        dsimp only at hput
        rw [Option.some_inj, Prod.mk.injEq] at hput
        have hev : lfu_key = ev := Option.some_inj.mp hput.2
        subst hev
        have hmemL : lfu_key ∈ fmGet c.freq_map c.min_frequency :=
          mem_of_getLast_some _ _ hlast
        obtain ⟨fe, hfe, hfef⟩ := (hinv.memIff c.min_frequency lfu_key).mp hmemL
        refine ⟨fe, hfe, fun k2 e2 he2 => ?_⟩
        rw [hfef]
        exact hinv.minLe k2 e2 he2
    · dsimp only at hput
      rw [Option.some_inj, Prod.mk.injEq] at hput
      exact Option.noConfusion hput.2

/-- Concrete run: put(a,1) on a fresh capacity-1 cache reaches lfuW, and
put(b,2) then evicts a, whose stored frequency 1 is minimal. -/
theorem c8_lfu_eviction_minimal_witness :
    ∃ fe, assocFind lfuW.cache "a" = some fe ∧
      ∀ k2 e2, assocFind lfuW.cache k2 = some e2 → fe.frequency ≤ e2.frequency :=
  c8_lfu_eviction_minimal 1 [LFUOp.put "a" "1"] lfuW "b" "2"
    ⟨1, 1, [("b", ⟨"2", 1⟩)], [(1, ["b"])]⟩ "a" (by decide) (by decide)

/-- C10: when the file already has a snapshot, update_source rebuilds
units_to_compile from scratch as exactly the affected list computed from that
file's changed lines, a value independent of the incoming units_to_compile
list, so still-pending ids from other files are discarded; when the file has
no snapshot, update_source appends the file's unit ids to the incoming
units_to_compile list, so pending ids survive in front. -/
theorem c10_units_to_compile_frame (eng : IncrementalEngine) (f : String)
    (content : List Nat) :
    (∀ old_snap, assocFind eng.snapshots f = some old_snap →
      (update_source eng f content).2.units_to_compile =
        (expand_to_boundaries
          (markChangedUnits eng.units f
            (get_changed_lines old_snap (create_snapshot f content))).1 f
          (markChangedUnits eng.units f
            (get_changed_lines old_snap (create_snapshot f content))).2).2) ∧
    (assocFind eng.snapshots f = none →
      (update_source eng f content).2.units_to_compile =
        eng.units_to_compile ++ (file_unit_pairs eng.units f).map (fun p => p.2.id)) := by
  constructor
  · intro old_snap hfind
    unfold update_source
    rw [hfind]
  · intro hfind
    unfold update_source
    rw [hfind]

/-- Concrete instantiation of the two branches: engW1 holds a snapshot of f
and pending id old1, which is discarded; engW2 has no snapshot of f and its
pending id old2 survives in front of the appended unit ids. -/
theorem c10_units_to_compile_frame_witness :
    ((update_source engW1 "f" []).2.units_to_compile =
      (expand_to_boundaries
        (markChangedUnits engW1.units "f"
          (get_changed_lines (create_snapshot "f" []) (create_snapshot "f" []))).1 "f"
        (markChangedUnits engW1.units "f"
          (get_changed_lines (create_snapshot "f" []) (create_snapshot "f" []))).2).2) ∧
    ((update_source engW2 "f" []).2.units_to_compile =
      engW2.units_to_compile ++
        (file_unit_pairs engW2.units "f").map (fun p => p.2.id)) :=
  ⟨(c10_units_to_compile_frame engW1 "f" []).1 (create_snapshot "f" []) rfl,
   (c10_units_to_compile_frame engW2 "f" []).2 rfl⟩

/-! ## LCS lemmas (C2) -/

theorem lcsDp_zero_left (o l : List String) (j : Nat) : lcsDp o l 0 j = 0 := rfl

theorem lcsDp_zero_right (o l : List String) (i : Nat) : lcsDp o l i 0 = 0 := by
  cases i <;> rfl

/-- The defining recurrence of the dp table, exactly the branch of the fill
loop of compute_lcs. -/
theorem lcsDp_succ (o l : List String) (i j : Nat) :
    lcsDp o l (i + 1) (j + 1) =
      if o.getD i "" = l.getD j "" then lcsDp o l i j + 1
      else max (lcsDp o l i (j + 1)) (lcsDp o l (i + 1) j) := rfl

theorem lcsBack_zero_left (o l : List String) (j : Nat) : lcsBack o l 0 j = [] := rfl

theorem lcsBack_zero_right (o l : List String) (i : Nat) : lcsBack o l i 0 = [] := by
  cases i <;> rfl

/-- The defining recurrence of the backtrace, exactly the while loop of
compute_lcs. -/
theorem lcsBack_succ (o l : List String) (i j : Nat) :
    lcsBack o l (i + 1) (j + 1) =
      if o.getD i "" = l.getD j "" then (i, j) :: lcsBack o l i j
      else if lcsDp o l i (j + 1) > lcsDp o l (i + 1) j then lcsBack o l i (j + 1)
      else lcsBack o l (i + 1) j := rfl

/-- A dp entry never exceeds its column index. -/
theorem lcsDp_le_right (o l : List String) : ∀ i j, lcsDp o l i j ≤ j := by
  intro i
  induction i with
  | zero =>
    intro j
    rw [lcsDp_zero_left]
    omega
  | succ i ih =>
    intro j
    induction j with
    | zero =>
      rw [lcsDp_zero_right]
    | succ j ihj =>
      rw [lcsDp_succ]
      by_cases hc : o.getD i "" = l.getD j ""
      · rw [if_pos hc]
        have := ih j
        omega
      · rw [if_neg hc]
        have h1 := ih (j + 1)
        exact max_le h1 (by omega)

/-- A dp entry never exceeds its row index. -/
theorem lcsDp_le_left (o l : List String) : ∀ i j, lcsDp o l i j ≤ i := by
  intro i
  induction i with
  | zero =>
    intro j
    rw [lcsDp_zero_left]
  | succ i ih =>
    intro j
    induction j with
    | zero =>
      rw [lcsDp_zero_right]
      omega
    | succ j ihj =>
      rw [lcsDp_succ]
      by_cases hc : o.getD i "" = l.getD j ""
      · rw [if_pos hc]
        have := ih j
        omega
      · rw [if_neg hc]
        have h1 := ih (j + 1)
        exact max_le (by omega) ihj

/-- Joint monotonicity and 1-Lipschitz bounds of the dp table in each
argument, by strong induction on the total index. -/
theorem lcsDp_step_bounds (o l : List String) : ∀ n i j, i + j ≤ n →
    (lcsDp o l i j ≤ lcsDp o l (i + 1) j ∧ lcsDp o l i j ≤ lcsDp o l i (j + 1)) ∧
    (lcsDp o l (i + 1) j ≤ lcsDp o l i j + 1 ∧
      lcsDp o l i (j + 1) ≤ lcsDp o l i j + 1) := by
  intro n
  induction n with
  | zero =>
    intro i j h
    have hi : i = 0 := by omega
    have hj : j = 0 := by omega
    subst hi
    subst hj
    refine ⟨⟨?_, ?_⟩, ?_, ?_⟩ <;>
      simp [lcsDp_zero_left, lcsDp_zero_right]
  | succ n ih =>
    intro i j h
    cases i with
    | zero =>
      refine ⟨⟨?_, ?_⟩, ?_, ?_⟩
      · rw [lcsDp_zero_left]
        omega
      · rw [lcsDp_zero_left, lcsDp_zero_left]
      · rw [lcsDp_zero_left]
        have := lcsDp_le_left o l (0 + 1) j
        omega
      · rw [lcsDp_zero_left, lcsDp_zero_left]
        omega
    | succ i =>
      cases j with
      | zero =>
        refine ⟨⟨?_, ?_⟩, ?_, ?_⟩
        · rw [lcsDp_zero_right, lcsDp_zero_right]
        · rw [lcsDp_zero_right]
          omega
        · rw [lcsDp_zero_right, lcsDp_zero_right]
          omega
        · rw [lcsDp_zero_right]
          have := lcsDp_le_right o l (i + 1) (0 + 1)
          omega
      | succ j =>
        have e1 := ih (i + 1) j (by omega)
        have e2 := ih i (j + 1) (by omega)
        refine ⟨⟨?_, ?_⟩, ?_, ?_⟩
        · rw [lcsDp_succ o l (i + 1) j]
          by_cases hc : o.getD (i + 1) "" = l.getD j ""
          · rw [if_pos hc]
            exact e1.2.2
          · rw [if_neg hc]
            exact le_max_left _ _
        · rw [lcsDp_succ o l i (j + 1)]
          by_cases hc : o.getD i "" = l.getD (j + 1) ""
          · rw [if_pos hc]
            exact e2.2.1
          · rw [if_neg hc]
            exact le_max_right _ _
        · rw [lcsDp_succ o l (i + 1) j]
          by_cases hc : o.getD (i + 1) "" = l.getD j ""
          · rw [if_pos hc]
            have := e1.1.2
            omega
          · rw [if_neg hc]
            refine max_le (by omega) ?_
            have h1 := e1.2.1
            have h2 := e1.1.2
            omega
        · rw [lcsDp_succ o l i (j + 1)]
          by_cases hc : o.getD i "" = l.getD (j + 1) ""
          · rw [if_pos hc]
            have := e2.1.1
            omega
          · rw [if_neg hc]
            refine max_le ?_ (by omega)
            have h1 := e2.2.2
            have h2 := e2.1.1
            omega

/-- The dp table grows along rows. -/
theorem lcsDp_mono_left (o l : List String) (i j : Nat) :
    lcsDp o l i j ≤ lcsDp o l (i + 1) j :=
  ((lcsDp_step_bounds o l (i + j) i j (le_refl _)).1).1

/-- The dp table grows along columns. -/
theorem lcsDp_mono_right (o l : List String) (i j : Nat) :
    lcsDp o l i j ≤ lcsDp o l i (j + 1) :=
  ((lcsDp_step_bounds o l (i + j) i j (le_refl _)).1).2

/-- On inputs that agree on their first r lines the dp diagonal is full. -/
theorem lcsDp_diag (o l : List String) : ∀ r : Nat,
    (∀ x, x < r → o.getD x "" = l.getD x "") → lcsDp o l r r = r := by
  intro r
  induction r with
  | zero =>
    intro _
    rfl
  | succ r ih =>
    intro hagree
    rw [lcsDp_succ, if_pos (hagree r (by omega)), ih (fun x hx => hagree x (by omega))]

/-- When the dp entry saturates its column index, the backtrace collects
every new-side index below it, in decreasing order. -/
theorem lcsBack_sat (o l : List String) : ∀ n i j, i + j ≤ n → lcsDp o l i j = j →
    (lcsBack o l i j).map (·.2) = (List.range j).reverse := by
  intro n
  induction n with
  | zero =>
    intro i j h hd
    have hi : i = 0 := by omega
    have hj : j = 0 := by omega
    subst hi
    subst hj
    rfl
  | succ n ih =>
    intro i j h hd
    cases j with
    | zero =>
      rw [lcsBack_zero_right]
      rfl
    | succ j =>
      cases i with
      | zero =>
        rw [lcsDp_zero_left] at hd
        exact absurd hd.symm (Nat.succ_ne_zero j)
      | succ i =>
        rw [lcsDp_succ] at hd
        rw [lcsBack_succ]
        by_cases hc : o.getD i "" = l.getD j ""
        · rw [if_pos hc] at hd ⊢
          have hdij : lcsDp o l i j = j := by omega
          rw [List.map_cons, ih i j (by omega) hdij, List.range_succ,
            List.reverse_append]
          rfl
        · rw [if_neg hc] at hd ⊢
          have hub : lcsDp o l (i + 1) j ≤ j := lcsDp_le_right o l (i + 1) j
          have hA : lcsDp o l i (j + 1) = j + 1 := by
            rcases Nat.le_total (lcsDp o l i (j + 1)) (lcsDp o l (i + 1) j) with
              hle | hle
            · rw [Nat.max_eq_right hle] at hd
              omega
            · rw [Nat.max_eq_left hle] at hd
              omega
          rw [if_pos (by omega)]
          exact ih i (j + 1) (by omega) hA

/-- Above the replaced line the two sides agree, so the backtrace descends
the diagonal, matching every index of the common suffix. -/
theorem lcsBack_descent (o l : List String) (k : Nat)
    (hgt : ∀ x, k < x → o.getD x "" = l.getD x "") : ∀ t : Nat,
    (lcsBack o l (k + 1 + t) (k + 1 + t)).map (·.2) =
      (List.range' (k + 1) t).reverse ++ (lcsBack o l (k + 1) (k + 1)).map (·.2) := by
  intro t
  induction t with
  | zero => simp
  | succ t ih =>
    have hstep : k + 1 + (t + 1) = (k + 1 + t) + 1 := rfl
    rw [hstep, lcsBack_succ, if_pos (hgt (k + 1 + t) (by omega))]
    rw [List.map_cons, ih, List.range'_concat, List.reverse_append]
    simp

/-- The element planted at the junction of an append is read back by getD. -/
theorem getD_mid (l1 l2 : List String) (a : String) :
    (l1 ++ a :: l2).getD l1.length "" = a := by
  rw [List.getD_append_right _ _ _ _ (le_refl _)]
  simp

theorem getD_low (l1 l2 : List String) (a : String) (x : Nat) (hx : x < l1.length) :
    (l1 ++ a :: l2).getD x "" = l1.getD x "" :=
  List.getD_append _ _ _ _ hx

theorem getD_high (l1 l2 : List String) (a : String) (x : Nat)
    (hx : l1.length < x) :
    (l1 ++ a :: l2).getD x "" = l2.getD (x - l1.length - 1) "" := by
  rw [List.getD_append_right _ _ _ _ (by omega)]
  obtain ⟨m, hm⟩ : ∃ m, x - l1.length = m + 1 := ⟨x - l1.length - 1, by omega⟩
  rw [hm]
  simp

/-- Bool-level membership readings of List.contains. -/
theorem list_contains_true {α : Type} [DecidableEq α] (L : List α) (x : α)
    (h : x ∈ L) : L.contains x = true := by
  have hh : L.contains x = true ↔ x ∈ L := by simp
  exact hh.mpr h

theorem list_contains_false {α : Type} [DecidableEq α] (L : List α) (x : α)
    (h : x ∉ L) : L.contains x = false := by
  have hh : L.contains x = true ↔ x ∈ L := by simp
  cases hcb : L.contains x with
  | false => rfl
  | true => exact absurd (hh.mp hcb) h

/-- The one-line filterMap at the end of get_changed_lines, evaluated on the
index sets produced by the backtrace lemmas. -/
theorem changed_filterMap (k t : Nat) :
    (List.range (k + 1 + t)).filterMap
      (fun i => if (List.range k ++ List.range' (k + 1) t).contains i then none
        else some (i + 1)) = [k + 1] := by
  have hsplit : List.range (k + 1 + t) =
      List.range (k + 1) ++ List.range' (k + 1) t := by
    have h0 := List.range'_append 0 (k + 1) t 1
    rw [List.range_eq_range', List.range_eq_range']
    have hco : k + 1 + t = t + (k + 1) := by omega
    rw [hco, ← h0]
    norm_num
  rw [hsplit, List.filterMap_append, List.range_succ, List.filterMap_append]
  have hseg1 : (List.range k).filterMap
      (fun i => if (List.range k ++ List.range' (k + 1) t).contains i then none
        else some (i + 1)) = [] := by
    rw [List.filterMap_eq_nil_iff]
    intro i hi
    have hc : (List.range k ++ List.range' (k + 1) t).contains i = true :=
      list_contains_true _ _ (List.mem_append.mpr (Or.inl hi))
    show (if (List.range k ++ List.range' (k + 1) t).contains i then
      (none : Option Nat) else some (i + 1)) = none
    rw [hc]
    rfl
  have hseg3 : (List.range' (k + 1) t).filterMap
      (fun i => if (List.range k ++ List.range' (k + 1) t).contains i then none
        else some (i + 1)) = [] := by
    rw [List.filterMap_eq_nil_iff]
    intro i hi
    have hc : (List.range k ++ List.range' (k + 1) t).contains i = true :=
      list_contains_true _ _ (List.mem_append.mpr (Or.inr hi))
    show (if (List.range k ++ List.range' (k + 1) t).contains i then
      (none : Option Nat) else some (i + 1)) = none
    rw [hc]
    rfl
  have hcmid : (List.range k ++ List.range' (k + 1) t).contains k = false := by
    refine list_contains_false _ _ ?_
    intro hmem
    rcases List.mem_append.mp hmem with hmm | hmm
    · exact absurd (List.mem_range.mp hmm) (lt_irrefl k)
    · have := (List.mem_range'_1.mp hmm).1
      omega
  have hfk : (if (List.range k ++ List.range' (k + 1) t).contains k then
      (none : Option Nat) else some (k + 1)) = some (k + 1) := by
    rw [hcmid]
    rfl
  rw [hseg1, hseg3, List.filterMap_cons _ k [], hfk]
  simp

/-- C2 (amended): whenever the two snapshots carry per-line hash lists that
agree except at exactly one position, which holds two different hashes,
get_changed_lines returns exactly that position, 1-based.  Stated on the
line-hash lists because the detector compares trimmed-line hashes, not the
lines themselves: a replacement that survives trimming with an equal hash is
invisible, see the counterexample. -/
theorem c2_changed_lines_single (old_snap new_snap : Snapshot)
    (l1 l2 : List String) (a b : String) (hab : a ≠ b)
    (h1 : old_snap.line_hashes = l1 ++ a :: l2)
    (h2 : new_snap.line_hashes = l1 ++ b :: l2) :
    get_changed_lines old_snap new_snap = [l1.length + 1] := by
  have hne : (l1 ++ a :: l2).getD l1.length "" ≠
      (l1 ++ b :: l2).getD l1.length "" := by
    rw [getD_mid, getD_mid]
    exact hab
  have hlow : ∀ x, x < l1.length →
      (l1 ++ a :: l2).getD x "" = (l1 ++ b :: l2).getD x "" := by
    intro x hx
    rw [getD_low _ _ _ _ hx, getD_low _ _ _ _ hx]
  have hhigh : ∀ x, l1.length < x →
      (l1 ++ a :: l2).getD x "" = (l1 ++ b :: l2).getD x "" := by
    intro x hx
    rw [getD_high _ _ _ _ hx, getD_high _ _ _ _ hx]
  have hdiag : lcsDp (l1 ++ a :: l2) (l1 ++ b :: l2) l1.length l1.length =
      l1.length := lcsDp_diag _ _ l1.length hlow
  have hd1 : lcsDp (l1 ++ a :: l2) (l1 ++ b :: l2) l1.length (l1.length + 1) =
      l1.length := by
    have hub := lcsDp_le_left (l1 ++ a :: l2) (l1 ++ b :: l2) l1.length
      (l1.length + 1)
    have hlb := lcsDp_mono_right (l1 ++ a :: l2) (l1 ++ b :: l2) l1.length
      l1.length
    omega
  have hd2 : lcsDp (l1 ++ a :: l2) (l1 ++ b :: l2) (l1.length + 1) l1.length =
      l1.length := by
    have hub := lcsDp_le_right (l1 ++ a :: l2) (l1 ++ b :: l2) (l1.length + 1)
      l1.length
    have hlb := lcsDp_mono_left (l1 ++ a :: l2) (l1 ++ b :: l2) l1.length
      l1.length
    omega
  have hpivot : lcsBack (l1 ++ a :: l2) (l1 ++ b :: l2) (l1.length + 1)
      (l1.length + 1) =
      lcsBack (l1 ++ a :: l2) (l1 ++ b :: l2) (l1.length + 1) l1.length := by
    rw [lcsBack_succ, if_neg hne, if_neg (by rw [hd1, hd2]; omega)]
  have hsat : (lcsBack (l1 ++ a :: l2) (l1 ++ b :: l2) (l1.length + 1)
      l1.length).map (·.2) = (List.range l1.length).reverse :=
    lcsBack_sat _ _ (l1.length + 1 + l1.length) (l1.length + 1) l1.length
      (le_refl _) hd2
  have hdesc := lcsBack_descent (l1 ++ a :: l2) (l1 ++ b :: l2) l1.length hhigh
    l2.length
  have hlena : (l1 ++ a :: l2).length = l1.length + 1 + l2.length := by
    rw [List.length_append, List.length_cons]
    omega
  have hlenb : (l1 ++ b :: l2).length = l1.length + 1 + l2.length := by
    rw [List.length_append, List.length_cons]
    omega
  simp only [get_changed_lines, compute_lcs]
  rw [h1, h2]
  simp only [hlena, hlenb, List.map_reverse, hdesc, hpivot, hsat,
    List.reverse_append, List.reverse_reverse]
  exact changed_filterMap l1.length l2.length

/-- Concrete instantiation: the hash lists of the snapshots of contents x, y,
z and x, Y, z differ exactly at position 2, and get_changed_lines reports
exactly line 2. -/
theorem c2_changed_lines_single_witness :
    get_changed_lines (create_snapshot "f" [120, 10, 121, 10, 122])
      (create_snapshot "f" [120, 10, 89, 10, 122]) = [2] :=
  c2_changed_lines_single (create_snapshot "f" [120, 10, 121, 10, 122])
    (create_snapshot "f" [120, 10, 89, 10, 122])
    [compute_line_hash [120]] [compute_line_hash [122]]
    (compute_line_hash [121]) (compute_line_hash [89])
    (by decide) (by decide) (by decide)

/-- The original wording of C2 is false on contents: replacing line 2 of
a-newline-b by the different line b-space leaves the trimmed line hashes
identical, so get_changed_lines reports no change at all instead of line
2. -/
theorem c2_counterexample :
    split_lines [97, 10, 98] = [[97], [98]] ∧
    split_lines [97, 10, 98, 32] = [[97], [98, 32]] ∧
    ([98] : List Nat) ≠ [98, 32] ∧
    get_changed_lines (create_snapshot "f" [97, 10, 98])
      (create_snapshot "f" [97, 10, 98, 32]) = [] := by
  refine ⟨by decide, by decide, by decide, ?_⟩
  decide

end Sikuwa
